import Mathlib

/-!
Verification of the hrosailing imputation and polar convex-hull subsystems.

Part 1 embeds `FillLocalImputator.impute` and `FillLocalImputator._fill_range`
from `src/hrosailing/pipelinecomponents/imputator.py` as executable Lean
functions over rational timestamps and cells.  The tabular `Data` collaborator
(`n_rows`, `n_cols`, key lookup, `strip`, `delete`) is not part of `src/`, so it
is modelled from the spec.  Crashing paths of the Python code (`KeyError` on a
missing "datetime" column, `ValueError` from `min([])`, `IndexError` from
`idx[0]` on an empty anchor list, `NameError` from an unbound `start_idx`) are
modelled by `Option`: `impute` returns `none` exactly when the Python code
raises.

Part 2 embeds the convex-hull slice post-processing: `_get_convex_hull` from
`src/hrosailing/polardiagram/plotting.py`, `_determine_convex_hull` from
`src/hrosailing/polardiagram/_plotting.py`, and (modelled from the spec, since
`hrosailing/plotting/projections.py` is absent from `src/`, only its tests are
present) the seam-handling hull extractor.  The planar convex-hull primitive is
an external collaborator (scipy's `ConvexHull`); it is a function parameter
returning the hull's vertex index set, `none` when it fails on degenerate
input.  Because the polar-to-Cartesian projection applies `cos`/`sin` to the
angles, the projection step is folded into this abstract collaborator: the
parameter receives the (angle, speed) pairs and is understood to answer with
the vertex indices of the projected point set.
-/

namespace HR

/-- A table cell: either a rational payload or the absence marker `none`.
Python cells are untyped; every operation `impute` performs on them
(placement, `is None` tests, storing a fill-function result) is modelled
uniformly with rational payloads, timestamps being rationals (seconds). -/
abbrev Cell := Option ℚ

/-- Modelled from the spec: the external `Data` record-table collaborator, a
mapping from field name to an ordered sequence of cells ("A mapping from field
name (string key, including a mandatory `datetime` key) to an ordered sequence
of values, all sequences having equal length").  The class itself is not in
`src/`. -/
structure Data where
  cols : List (String × List Cell)
deriving DecidableEq

/-- Modelled from the spec: number of columns of the table. -/
def Data.n_cols (d : Data) : ℕ := d.cols.length

/-- Modelled from the spec: number of rows of the table (the common length of
the column sequences; by convention the length of the first column). -/
def Data.n_rows (d : Data) : ℕ := (d.cols.head?.map (fun c => c.2.length)).getD 0

/-- Modelled from the spec: key-based column lookup; `none` models Python's
`KeyError` on a missing key. -/
def Data.lookup (d : Data) (k : String) : Option (List Cell) :=
  (d.cols.find? (fun c => c.1 = k)).map (fun c => c.2)

/-- Modelled from the spec: key-based column assignment. -/
def Data.setCol (d : Data) (k : String) (v : List Cell) : Data :=
  ⟨d.cols.map (fun c => if c.1 = k then (c.1, v) else c)⟩

/-- Remove the rows whose indices are listed in `rows` from one column. -/
def removeIdxs (l : List Cell) (rows : List ℕ) : List Cell :=
  (l.enum.filter (fun p => ¬ p.1 ∈ rows)).map (fun p => p.2)

/-- Modelled from the spec: `delete(row_indices)` removes the listed rows from
every column. -/
def Data.delete (d : Data) (rows : List ℕ) : Data :=
  ⟨d.cols.map (fun c => (c.1, removeIdxs c.2 rows))⟩

/-- Modelled from the spec: `strip("cols")` deletes every column that is
entirely absent-valued. -/
def Data.strip (d : Data) : Data :=
  ⟨d.cols.filter (fun c => c.2.any (fun x => x.isSome))⟩

/-- The Record Table invariant from the spec: field names are distinct (Python
dictionary keys) and all column sequences have equal length. -/
def Data.WF (d : Data) : Prop :=
  (d.cols.map Prod.fst).Nodup ∧ ∀ c ∈ d.cols, c.2.length = d.n_rows

instance (d : Data) : Decidable d.WF := by unfold Data.WF; infer_instance

/-- The internal shape of the imputator's fill functions after the wrapping in
`FillLocalImputator.__init__`: `(name, left, right, mu) -> value`.  The
returned value is stored in the cell unchanged, so a user function returning
`None` is representable. -/
abbrev FillFun := String → Cell → Cell → ℚ → Cell

/-- Configuration of `FillLocalImputator`: the user-facing fill functions and
the proximity threshold `max_time_diff` (a duration in seconds). -/
structure FillCfg where
  fill_before : String → Cell → ℚ → Cell
  fill_between : String → Cell → Cell → ℚ → Cell
  fill_after : String → Cell → ℚ → Cell
  max_time_diff : ℚ

/-- `self._fill_before = lambda name, left, right, mu: fill_before(name, right, mu)`. -/
def FillCfg.fb (c : FillCfg) : FillFun := fun name _ right mu => c.fill_before name right mu

/-- `self._fill_between = fill_between`. -/
def FillCfg.fbt (c : FillCfg) : FillFun := fun name left right mu => c.fill_between name left right mu

/-- `self._fill_after = lambda name, left, right, mu: fill_after(name, left, mu)`. -/
def FillCfg.fa (c : FillCfg) : FillFun := fun name left _ mu => c.fill_after name left mu

/-- The default configuration of `FillLocalImputator.__init__`:
`fill_before = lambda name, right, mu: right`,
`fill_between = lambda name, left, right, mu: left`,
`fill_after = lambda name, left, mu: left`,
`max_time_diff = timedelta(minutes=2)` (120 seconds). -/
def defaultCfg : FillCfg where
  fill_before := fun _ right _ => right
  fill_between := fun _ left _ _ => left
  fill_after := fun _ left _ => left
  max_time_diff := 120

/-- The inner loop of the timestamp-repair pass
(`for j in range(last_i+1, i): data_dict["datetime"][j] = last_dt + mu*(dt - last_dt)`
with `mu = (j - last_i)/(i - last_i)`): write the affine interpolation between
the anchor `(last, li)` and the current timestamp `(dt, i)` into every row
strictly between them. -/
def dtFill (last : ℚ) (li : ℕ) (dt : ℚ) (i : ℕ) (l : List Cell) : List Cell :=
  (List.range' (li + 1) (i - (li + 1))).foldl
    (fun acc j =>
      acc.set j (some (last + (((j : ℚ) - (li : ℚ)) / ((i : ℚ) - (li : ℚ))) * (dt - last))))
    l

/-- The timestamp-repair scan of `impute` (lines 133-146 of `imputator.py`).
The Python loop iterates over the datetime list while assigning only to
indices strictly below the read cursor, so it is equivalent to reading the
original list (the first argument, walked element by element with its index
`i`) while accumulating the writes in `acc`.  The state is
`(last_dt, last_i)`, `none` before the first present timestamp; note that the
`abs(dt - last_dt) > max_time_diff` branch executes `continue`, skipping the
`last_dt, last_i = dt, i` update, so the anchor does not advance on a far
pair. -/
def dtLoop (diff : ℚ) : List Cell → ℕ → Option (ℚ × ℕ) → List Cell → List Cell
  | [], _, _, acc => acc
  | x :: rest, i, st, acc =>
    match x with
    | none => dtLoop diff rest (i + 1) st acc
    | some dt =>
      match st with
      | none => dtLoop diff rest (i + 1) (some (dt, i)) acc
      | some (last, li) =>
        if |dt - last| > diff then dtLoop diff rest (i + 1) st acc
        else dtLoop diff rest (i + 1) (some (dt, i)) (dtFill last li dt i acc)

/-- The whole timestamp-repair pass applied to the datetime column. -/
def dtPass (diff : ℚ) (l : List Cell) : List Cell := dtLoop diff l 0 none l

/-- `FillLocalImputator._fill_range` (lines 258-277 of `imputator.py`):
`left`/`right` are read once before the loop; every row `i` with
`start_idx < i < end_idx` is assigned `fill_fun(key, left, right, mu)` where
`mu = (datetime[i] - datetime[start_idx]) / duration`, the
`ZeroDivisionError` on a zero `duration` being caught and replaced by
`mu = 0`; `self._n_filled` is incremented once per assignment.  The write is
unconditional: it does not test whether the cell already holds a value. -/
def fillRange (dts : List ℚ) (key : String) (col : List Cell)
    (startIdx endIdx : ℕ) (f : FillFun) (nFilled : ℕ) : List Cell × ℕ :=
  let left := col.getD startIdx none
  let right := col.getD endIdx none
  (List.range' (startIdx + 1) (endIdx - (startIdx + 1))).foldl
    (fun acc i =>
      let duration := dts.getD endIdx 0 - dts.getD startIdx 0
      let mu := if duration = 0 then 0 else (dts.getD i 0 - dts.getD startIdx 0) / duration
      (acc.1.set i (f key left right mu), acc.2 + 1))
    (col, nFilled)

/-- The window of rows before the column's first anchor `i0` that lie within
`max_time_diff` of it: `[i for i in range(idx[0]) if datetime[idx[0]] - datetime[i] < max_time_diff]`
(the comparison is strict and without `abs`, as in the source). -/
def nearBefore (cfg : FillCfg) (dts : List ℚ) (i0 : ℕ) : List ℕ :=
  (List.range i0).filter (fun i => dts.getD i0 0 - dts.getD i 0 < cfg.max_time_diff)

/-- The before-first-anchor block (lines 169-181): when `idx[0] > 0`,
`start_idx = min([...])` — a `ValueError` (`none`) if the window is empty —
followed by `_fill_range(..., start_idx, idx[0], fill_before)`.  Returns the
updated column, counter, and the bound `start_idx` (`none` when the block did
not run, modelling the unbound Python local). -/
def beforeBlock (cfg : FillCfg) (dts : List ℚ) (key : String) (col0 : List Cell)
    (nF0 : ℕ) (i0 : ℕ) : Option (List Cell × ℕ × Option ℕ) :=
  if 0 < i0 then do
    let s ← (nearBefore cfg dts i0).min?
    let r := fillRange dts key col0 s i0 cfg.fb nF0
    pure (r.1, r.2, some s)
  else
    pure (col0, nF0, (none : Option ℕ))

/-- Far-pair branch, first half (lines 198-210): the rows strictly between the
anchors that lie within `max_time_diff` after the left anchor; when any exist,
`_fill_range(idx1, max(near_points), fill_after)`. -/
def farRight (cfg : FillCfg) (dts : List ℚ) (key : String) (p : ℕ × ℕ)
    (acc : List Cell × ℕ) : List Cell × ℕ :=
  match ((List.range' (p.1 + 1) (p.2 - (p.1 + 1))).filter
      (fun i => dts.getD i 0 - dts.getD p.1 0 < cfg.max_time_diff)).max? with
  | some lastR => fillRange dts key acc.1 p.1 lastR cfg.fa acc.2
  | none => acc

/-- Far-pair branch, second half (lines 211-223): the rows strictly between
the anchors that lie within `max_time_diff` before the right anchor; when any
exist, `_fill_range(min(near_points), idx2, fill_before)`. -/
def farLeft (cfg : FillCfg) (dts : List ℚ) (key : String) (p : ℕ × ℕ)
    (acc : List Cell × ℕ) : List Cell × ℕ :=
  match ((List.range' (p.1 + 1) (p.2 - (p.1 + 1))).filter
      (fun i => dts.getD p.2 0 - dts.getD i 0 < cfg.max_time_diff)).min? with
  | some firstL => fillRange dts key acc.1 firstL p.2 cfg.fb acc.2
  | none => acc

/-- One step of the consecutive-anchor-pair loop (lines 184-223): the close
branch (`timediff < max_time_diff`) fills the whole span with `fill_between`;
the far branch applies `farRight` then `farLeft`. -/
def pairStep (cfg : FillCfg) (dts : List ℚ) (key : String)
    (acc : List Cell × ℕ) (p : ℕ × ℕ) : List Cell × ℕ :=
  if dts.getD p.2 0 - dts.getD p.1 0 < cfg.max_time_diff then
    fillRange dts key acc.1 p.1 p.2 cfg.fbt acc.2
  else
    farLeft cfg dts key p (farRight cfg dts key p acc)

/-- The final "fill last entries according to 'fill_after'" block (lines
225-238): as in the source, it recomputes the window before the FIRST anchor
(`range(idx[0])` with the same comparison as the before-block), and when that
window is non-empty calls `_fill_range(..., start_idx, min(near_points),
fill_after)`, reading the Python local `start_idx` (a `NameError` — `none` —
were it unbound). -/
def lastBlock (cfg : FillCfg) (dts : List ℚ) (key : String) (i0 : ℕ)
    (startIdx? : Option ℕ) (pr : List Cell × ℕ) : Option (List Cell × ℕ) :=
  match (nearBefore cfg dts i0).min? with
  | none => pure pr
  | some e => do
      let s ← startIdx?
      pure (fillRange dts key pr.1 s e cfg.fa pr.2)

/-- Per-column body of the step-4 loop of `impute` (lines 164-238 of
`imputator.py`) for one non-datetime key: `idx` is the list of row indices
holding a present value (`idx[0]`, an `IndexError` — `none` — when the column
has no anchor at all), followed by the before-block, the
consecutive-anchor-pair fold, and the last-entries block. -/
def processKey (cfg : FillCfg) (dts : List ℚ) (key : String) (col0 : List Cell)
    (nF0 : ℕ) : Option (List Cell × ℕ) := do
  let idx := (List.range col0.length).filter (fun i => (col0.getD i none).isSome)
  let i0 ← idx.head?
  let st ← beforeBlock cfg dts key col0 nF0 i0
  let pr := (idx.zip idx.tail).foldl (pairStep cfg dts key) (st.1, st.2.1)
  lastBlock cfg dts key i0 st.2.2 pr

/-- One iteration of the step-4 column loop: the `datetime` key is skipped
(`continue`); any other key is processed by `processKey`, its column being
replaced in place.  The accumulator carries the already-processed columns in
order together with the `_n_filled` counter. -/
def colStep (cfg : FillCfg) (dts : List ℚ)
    (acc : List (String × List Cell) × ℕ) (c : String × List Cell) :
    Option (List (String × List Cell) × ℕ) :=
  if c.1 = "datetime" then
    pure (acc.1 ++ [c], acc.2)
  else do
    let r ← processKey cfg dts c.1 c.2 acc.2
    pure (acc.1 ++ [(c.1, r.1)], r.2)

/-- The statistics dictionary returned by `impute`. -/
structure ImputeStats where
  n_removed_cols : ℕ
  n_removed_rows : ℕ
  n_filled_fields : ℕ
  n_rows : ℕ
  n_cols : ℕ
deriving DecidableEq

/-- `FillLocalImputator.impute` (lines 103-256 of `imputator.py`), start to
finish: strip fully-absent columns; timestamp-repair pass; delete rows whose
timestamp is still absent; per-column gap filling (the column loop iterates
over the fixed post-deletion columns, each key's fills touching only its own
column, so the fold collects the rewritten columns in order); delete rows that
still contain an absence marker; return the table with the statistics.  After
the timestamp deletion the datetime column provably contains no `none` (the
deleted index set is exactly its `none` positions), so reading a timestamp is
modelled total via `getD 0`.  A `none` result models a raised exception.
Steps 4-6 (lines 155-256) are split off as `imputePhase2`: per-column gap
filling over the
row-deletion survivor table `d3`, the final deletion of rows still holding an
absence marker, and the statistics assembly. -/
def imputePhase2 (cfg : FillCfg) (nRemovedCols nRemovedRows : ℕ) (d3 : Data) :
    Option (Data × ImputeStats) := do
  let dl ← d3.lookup "datetime"
  let dts := dl.map (fun o => o.getD 0)
  let res ← d3.cols.foldlM (colStep cfg dts) ([], 0)
  let d4 : Data := ⟨res.1⟩
  let removeRows2 := (List.range dl.length).filter
    (fun i => d4.cols.any (fun c => c.2.getD i none = none))
  let d5 := d4.delete removeRows2
  pure (d5, ⟨nRemovedCols, nRemovedRows + removeRows2.length, res.2, d5.n_rows, d5.n_cols⟩)

def impute (cfg : FillCfg) (d0 : Data) : Option (Data × ImputeStats) := do
  let nCols0 := d0.n_cols
  let d1 := d0.strip
  let nRemovedCols := nCols0 - d1.n_cols
  let dts0 ← d1.lookup "datetime"
  let dts1 := dtPass cfg.max_time_diff dts0
  let d2 := d1.setCol "datetime" dts1
  let removeRows := (List.range dts1.length).filter (fun i => dts1.getD i none = none)
  let d3 := d2.delete removeRows
  imputePhase2 cfg nRemovedCols removeRows.length d3

/-! ## Convex-hull slice geometry -/

/-- Ascending sort of the hull's vertex index set (`sorted(conv.vertices)`). -/
def sortNat (l : List ℕ) : List ℕ := l.insertionSort (· ≤ ·)

/-- One sample of a slice as consumed by the seam-handling hull extractor:
wind speed, wind angle (degrees), boat speed, optional auxiliary info. -/
structure HullPt where
  ws : ℚ
  wa : ℚ
  bsp : ℚ
  info : Option String
deriving DecidableEq

instance : Inhabited HullPt := ⟨⟨0, 0, 0, none⟩⟩

/-- Comparison of slice samples by wind angle (the sort key of the angle
sort). -/
def rowLE (x y : HullPt) : Prop := x.wa ≤ y.wa

instance : DecidableRel rowLE := fun x y => inferInstanceAs (Decidable (x.wa ≤ y.wa))

instance : IsTotal HullPt rowLE := ⟨fun a b => le_total a.wa b.wa⟩

instance : IsTrans HullPt rowLE := ⟨fun _ _ _ hab hbc => le_trans hab hbc⟩

/-- Stable sort of slice samples by wind angle. -/
def sortRows (l : List HullPt) : List HullPt := l.insertionSort rowLE

/-- Pair the four slice arrays into sample rows (absent info becomes `none`
entries). -/
def buildRows : List ℚ → List ℚ → List ℚ → List (Option String) → List HullPt
  | w :: wl, a :: al, b :: bl, inf => ⟨w, a, b, inf.headD none⟩ :: buildRows wl al bl inf.tail
  | _, _, _, _ => []

/-- Info column of a slice as optional entries (`none` when no info was
supplied). -/
def infoEntries (info : Option (List String)) : List (Option String) :=
  match info with
  | none => []
  | some l => l.map some

/-- Unzip sample rows back into the four result arrays; the info result is
`none` exactly when no info was supplied. -/
def rowsOut (rs : List HullPt) (info : Option (List String)) :
    List ℚ × List ℚ × List ℚ × Option (List (Option String)) :=
  (rs.map (fun r => r.ws), rs.map (fun r => r.wa), rs.map (fun r => r.bsp),
    match info with
    | none => none
    | some _ => some (rs.map (fun r => r.info)))

/-- Modelled from the spec: the seam-handling hull extractor
`hrosailing.plotting.projections._get_convex_hull` is absent from `src/` (only
its tests are, in `src/tests/test_plotting/test_projections/test_method.py`);
this follows spec section 4.2 and the behaviour those tests record.
Step 2: zero points give empty results; fewer than 3 points, or a hull
primitive failure on degenerate input (`hull` answering `none`), give the
original points unchanged, sorted by angle, without error.  Step 3: hull
vertices are re-expressed in original coordinates sorted by original angle.
Step 4 (seam handling on the angle-sorted hull vertices): if vertices exist at
both 0 and 360 degrees nothing is added; if the hull's angle span is below 180
degrees nothing is added; a vertex at exactly 0 (respectively 360) degrees is
duplicated at 360 (respectively 0) carrying its info; otherwise the minimal
angle vertex is the near-0 representative whose geometry is duplicated at 360
with a null info marker.  The polygon's closure is realised by the seam
duplicate itself; the tests record no additional repetition of the first
vertex. -/
def getConvexHullProjections (hull : List (ℚ × ℚ) → Option (List ℕ))
    (ws wa bsp : List ℚ) (info : Option (List String)) :
    List ℚ × List ℚ × List ℚ × Option (List (Option String)) :=
  let rows := sortRows (buildRows ws wa bsp (infoEntries info))
  if rows.length < 3 then rowsOut rows info
  else
    match hull (rows.map (fun r => (r.wa, r.bsp))) with
    | none => rowsOut rows info
    | some vert =>
      let sel := (sortNat vert).map (fun i => rows.getD i default)
      let angles := sel.map (fun r => r.wa)
      let sel2 :=
        if (0 : ℚ) ∈ angles ∧ (360 : ℚ) ∈ angles then sel
        else if angles.getLastD 0 - angles.headD 0 < 180 then sel
        else if (0 : ℚ) ∈ angles then
          match sel.find? (fun r => r.wa = 0) with
          | some r => sel ++ [⟨r.ws, 360, r.bsp, r.info⟩]
          | none => sel
        else if (360 : ℚ) ∈ angles then
          match sel.find? (fun r => r.wa = 360) with
          | some r => ⟨r.ws, 0, r.bsp, r.info⟩ :: sel
          | none => sel
        else
          match sel.head? with
          | some r => sel ++ [⟨r.ws, 360, r.bsp, none⟩]
          | none => sel
      rowsOut sel2 info

/-- `_get_convex_hull` from `src/hrosailing/polardiagram/plotting.py` (lines
313-323): sort the hull primitive's vertex indices, select the corresponding
(angle, speed) pairs, then append the first selected pair again
(`xs.append(xs[0]); ys.append(ys[0])`, an `IndexError` — modelled `none` —
when the vertex list is empty).  The hull primitive is the external
collaborator `convex_hull_polar`. -/
def getConvexHullPlotting (hull : List (ℚ × ℚ) → List ℕ) (wa bsp : List ℚ) :
    Option (List ℚ × List ℚ) :=
  let vert := sortNat (hull (wa.zip bsp))
  let xs := vert.map (fun i => wa.getD i 0)
  let ys := vert.map (fun i => bsp.getD i 0)
  match xs.head?, ys.head? with
  | some x0, some y0 => some (xs ++ [x0], ys ++ [y0])
  | _, _ => none

/-- `_determine_convex_hull` from `src/hrosailing/polardiagram/_plotting.py`
(lines 280-304).  Slices with fewer than 3 points are appended unchanged.  The
other branch executes `conv = _convex_hull_polar(w, b)` where no name `w` or
`b` is bound (the loop variables are `wa` and `bsp`, and the module defines no
global `w` or `b`), so Python raises `NameError` there; the branch is modelled
by that error value. -/
def determineConvexHull : List (List ℚ × List ℚ) → Except String (List (List ℚ) × List (List ℚ))
  | [] => Except.ok ([], [])
  | s :: rest =>
    if s.1.length < 3 then
      match determineConvexHull rest with
      | Except.ok r => Except.ok (s.1 :: r.1, s.2 :: r.2)
      | Except.error e => Except.error e
    else
      Except.error "NameError: name w is not defined"

/-- Number of surviving rows when deleting `rows` from a column of length `n`. -/
def remLen (n : ℕ) (rows : List ℕ) : ℕ :=
  ((List.range n).filter (fun i => ¬ i ∈ rows)).length

/-! ## Lemmas about `_fill_range` -/

/-- The value `_fill_range` writes into row `i`: the fill function applied to
the key, the cell values at the two span ends, and the relative position
`mu` (0 when the span has zero duration). -/
def fillVal (dts : List ℚ) (key : String) (col : List Cell) (startIdx endIdx : ℕ)
    (f : FillFun) (i : ℕ) : Cell :=
  f key (col.getD startIdx none) (col.getD endIdx none)
    (if dts.getD endIdx 0 - dts.getD startIdx 0 = 0 then 0
     else (dts.getD i 0 - dts.getD startIdx 0) / (dts.getD endIdx 0 - dts.getD startIdx 0))

theorem foldl_set_count {α : Type} (g : ℕ → α) :
    ∀ (L : List ℕ) (l : List α) (n : ℕ),
      (L.foldl (fun acc i => (acc.1.set i (g i), acc.2 + 1)) (l, n)) =
        (L.foldl (fun acc i => acc.set i (g i)) l, n + L.length) := by
  intro L
  induction L with
  | nil => intro l n; simp
  | cons a L ih =>
      intro l n
      simp only [List.foldl_cons, List.length_cons, ih]
      congr 1
      omega

theorem fillRange_eq (dts : List ℚ) (key : String) (col : List Cell)
    (s e : ℕ) (f : FillFun) (n : ℕ) :
    fillRange dts key col s e f n =
      ((List.range' (s + 1) (e - (s + 1))).foldl
          (fun acc i => acc.set i (fillVal dts key col s e f i)) col,
        n + (e - (s + 1))) := by
  unfold fillRange fillVal
  rw [foldl_set_count]
  simp [List.length_range']

theorem foldl_set_getD {α : Type} (g : ℕ → α) (d : α) :
    ∀ (n s : ℕ) (l : List α) (k : ℕ),
      ((List.range' s n).foldl (fun acc i => acc.set i (g i)) l).getD k d =
        if s ≤ k ∧ k < s + n ∧ k < l.length then g k else l.getD k d := by
  intro n
  induction n with
  | zero =>
      intro s l k
      rw [List.range'_zero, List.foldl_nil, if_neg (by omega)]
  | succ m ih =>
      intro s l k
      rw [List.range'_succ, List.foldl_cons, ih]
      simp only [List.length_set]
      by_cases hk : k = s
      · subst hk
        rw [if_neg (by omega)]
        by_cases hlen : k < l.length
        · rw [if_pos (by omega)]
          simp [List.getD, List.getElem?_set_self hlen]
        · rw [if_neg (by omega)]
          have h1 : (l.set k (g k))[k]? = none := by
            rw [List.getElem?_eq_none_iff]
            simpa using Nat.le_of_not_lt hlen
          have h2 : l[k]? = none := by
            rw [List.getElem?_eq_none_iff]
            exact Nat.le_of_not_lt hlen
          simp [List.getD, h1, h2]
      · have hset : (l.set s (g s)).getD k d = l.getD k d := by
          simp [List.getD, List.getElem?_set_ne (by omega : s ≠ k)]
        rw [hset]
        by_cases h1 : s + 1 ≤ k ∧ k < s + 1 + m ∧ k < l.length
        · rw [if_pos h1, if_pos (by omega)]
        · rw [if_neg h1, if_neg (by omega)]

theorem fillRange_getD (dts : List ℚ) (key : String) (col : List Cell)
    (s e : ℕ) (f : FillFun) (n : ℕ) (k : ℕ) :
    (fillRange dts key col s e f n).1.getD k none =
      if s + 1 ≤ k ∧ k < e ∧ k < col.length then fillVal dts key col s e f k
      else col.getD k none := by
  rw [fillRange_eq]
  simp only [foldl_set_getD]
  by_cases h : s + 1 ≤ k ∧ k < s + 1 + (e - (s + 1)) ∧ k < col.length
  · rw [if_pos h, if_pos (by omega)]
  · rw [if_neg h, if_neg (by omega)]

theorem foldl_set_length {α : Type} (v : ℕ → α) :
    ∀ (L : List ℕ) (l : List α),
      (L.foldl (fun acc i => acc.set i (v i)) l).length = l.length := by
  intro L
  induction L with
  | nil => intro l; simp
  | cons a L ih => intro l; rw [List.foldl_cons, ih, List.length_set]

theorem fillRange_length (dts : List ℚ) (key : String) (col : List Cell)
    (s e : ℕ) (f : FillFun) (n : ℕ) :
    (fillRange dts key col s e f n).1.length = col.length := by
  rw [fillRange_eq]
  exact foldl_set_length _ _ _

/-- Claim C10: `_fill_range` overwrites every cell strictly between
`start_idx` and `end_idx` with the fill function's result — unconditionally,
with no test of whether the cell already holds a value, so present cells are
overwritten exactly like absent ones — and increments the `_n_filled`
counter once per write, overwrites included, so the whole span
`end_idx - start_idx - 1` is added to the statistic. -/
theorem claim_C10 (dts : List ℚ) (key : String) (col : List Cell) (s e : ℕ)
    (f : FillFun) (n : ℕ) (i : ℕ) (hs : s < i) (he : i < e) (hl : i < col.length) :
    (fillRange dts key col s e f n).1.getD i none =
      f key (col.getD s none) (col.getD e none)
        (if dts.getD e 0 - dts.getD s 0 = 0 then 0
         else (dts.getD i 0 - dts.getD s 0) / (dts.getD e 0 - dts.getD s 0)) ∧
    (fillRange dts key col s e f n).2 = n + (e - (s + 1)) := by
  constructor
  · rw [fillRange_getD, if_pos (by omega)]
    rfl
  · rw [fillRange_eq]

/-- Witness for C10 at a concrete input in which the overwritten cell
`col[1] = some 2` was already present: the write replaces it with the default
`fill_between` result `some 1` (the left anchor value) and the counter is
incremented for it. -/
theorem claim_C10_witness :
    (fillRange [0, 1, 2] "x" [some 1, some 2, some 3] 0 2 defaultCfg.fbt 0).1.getD 1 none
        = some 1 ∧
      (fillRange [0, 1, 2] "x" [some 1, some 2, some 3] 0 2 defaultCfg.fbt 0).2 = 0 + 1 := by
  have h := claim_C10 [0, 1, 2] "x" [some 1, some 2, some 3] 0 2 defaultCfg.fbt 0 1
    (by decide) (by decide) (by decide)
  constructor
  · rw [h.1]; rfl
  · exact h.2

/-! ## Lemmas about the timestamp-repair pass -/

theorem dtFill_getD (last : ℚ) (li : ℕ) (dt : ℚ) (i : ℕ) (l : List Cell) (k : ℕ) :
    (dtFill last li dt i l).getD k none =
      if li + 1 ≤ k ∧ k < li + 1 + (i - (li + 1)) ∧ k < l.length
      then some (last + (((k : ℚ) - (li : ℚ)) / ((i : ℚ) - (li : ℚ))) * (dt - last))
      else l.getD k none := by
  unfold dtFill
  exact foldl_set_getD _ none _ _ l k

theorem dtFill_length (last : ℚ) (li : ℕ) (dt : ℚ) (i : ℕ) (l : List Cell) :
    (dtFill last li dt i l).length = l.length := by
  unfold dtFill
  exact foldl_set_length _ _ _

theorem dtLoop_length (diff : ℚ) :
    ∀ (L : List Cell) (i : ℕ) (st : Option (ℚ × ℕ)) (acc : List Cell),
      (dtLoop diff L i st acc).length = acc.length := by
  intro L
  induction L with
  | nil => intro i st acc; rfl
  | cons x rest ih =>
      intro i st acc
      cases x with
      | none => exact ih (i + 1) st acc
      | some dt =>
          cases st with
          | none => exact ih (i + 1) (some (dt, i)) acc
          | some p =>
              obtain ⟨last, li⟩ := p
              by_cases hd : |dt - last| > diff
              · simp only [dtLoop, if_pos hd]
                exact ih (i + 1) (some (last, li)) acc
              · simp only [dtLoop, if_neg hd]
                rw [ih, dtFill_length]

/-- Rows at or before the scan anchor are never written again: once the state
index has passed a row, later steps leave it untouched. -/
theorem dtLoop_getD_le (diff : ℚ) :
    ∀ (L : List Cell) (i : ℕ) (st : Option (ℚ × ℕ)) (acc : List Cell) (k : ℕ),
      k ≤ i → (∀ t li, st = some (t, li) → k ≤ li) →
      (dtLoop diff L i st acc).getD k none = acc.getD k none := by
  intro L
  induction L with
  | nil => intro i st acc k _ _; rfl
  | cons x rest ih =>
      intro i st acc k hki hst
      cases x with
      | none => exact ih (i + 1) st acc k (by omega) hst
      | some dt =>
          cases st with
          | none =>
              refine ih (i + 1) (some (dt, i)) acc k (by omega) ?_
              intro t li h
              cases h
              exact hki
          | some p =>
              obtain ⟨last, li⟩ := p
              have hli : k ≤ li := hst last li rfl
              by_cases hd : |dt - last| > diff
              · simp only [dtLoop, if_pos hd]
                exact ih (i + 1) (some (last, li)) acc k (by omega) (by
                  intro t li2 h; cases h; exact hli)
              · simp only [dtLoop, if_neg hd]
                rw [ih (i + 1) (some (dt, i)) _ k (by omega) (by
                  intro t li2 h; cases h; exact hki)]
                rw [dtFill_getD, if_neg (by omega)]

/-- Walking a block of absent timestamps leaves the accumulator and the scan
state unchanged (the `dt is None` branch only executes `continue`). -/
theorem dtLoop_append_nones (diff : ℚ) :
    ∀ (A rest : List Cell) (i : ℕ) (st : Option (ℚ × ℕ)) (acc : List Cell),
      (∀ x ∈ A, x = none) →
      dtLoop diff (A ++ rest) i st acc = dtLoop diff rest (i + A.length) st acc := by
  intro A
  induction A with
  | nil => intro rest i st acc _; simp
  | cons a A ih =>
      intro rest i st acc h
      have ha : a = none := h a (by simp)
      subst ha
      show dtLoop diff (A ++ rest) (i + 1) st acc = _
      rw [ih rest (i + 1) st acc (fun x hx => h x (by simp [hx]))]
      congr 1
      simp [List.length_cons]
      omega

/-- Claim C2, counterexample.  Input table (one `datetime` column, threshold
120 s): rows `[0 s, 600 s, None, 660 s]`.  The present timestamps 600 and 660
at rows 1 and 3 differ by 60 s < 120 s and only the absent row 2 lies between
them, so the claim requires row 2 to become `600 + (1/2)·60 = 630`.  The code
instead leaves it absent and deletes it — the `continue` in the
`abs(dt - last_dt) > max_time_diff` branch skips the anchor update, so row 3
is compared against the stale anchor at row 0 (660 s away) rather than
against row 1. -/
theorem claim_C2_counterexample :
    impute defaultCfg ⟨[("datetime", [some 0, some 600, none, some 660])]⟩ =
      some (⟨[("datetime", [some 0, some 600, some 660])]⟩,
        ⟨0, 1, 0, 3, 1⟩) := by
  set_option maxRecDepth 4000 in
  with_unfolding_all decide

/-- Claim C2, amended: the timestamp repair pass interpolates between the
scan's anchor and the next present timestamp at most `max_time_diff`
(inclusively) away from it, and the anchor does not advance past a present
timestamp that is farther than `max_time_diff` from it.  Precisely: when the
scan holds anchor `(a, li)` and the remaining rows are an all-absent block
`B` followed by a present timestamp `b` with `|b - a| ≤ max_time_diff`, every
row of the block receives the affine interpolation linear in row index
between the anchors, `a + ((k+1)/(|B|+1))·(b - a)` for the k-th block row,
and later scan steps never touch these rows again. -/
theorem claim_C2_amended (diff a b : ℚ) (li : ℕ) (B C : List Cell) (acc : List Cell)
    (hB : ∀ x ∈ B, x = none) (hab : |b - a| ≤ diff)
    (hlen : li + 1 + B.length < acc.length) (k : ℕ) (hk : k < B.length) :
    (dtLoop diff (B ++ some b :: C) (li + 1) (some (a, li)) acc).getD (li + 1 + k) none
      = some (a + (((k : ℚ) + 1) / ((B.length : ℚ) + 1)) * (b - a)) := by
  rw [dtLoop_append_nones diff B _ _ _ _ hB]
  show (dtLoop diff (some b :: C) _ _ _).getD _ _ = _
  simp only [dtLoop, if_neg (not_lt.mpr hab)]
  rw [dtLoop_getD_le diff C _ _ _ _ (by omega) (by
    intro t li2 h; cases h; omega)]
  rw [dtFill_getD, if_pos (by constructor; omega; constructor; omega; omega)]
  congr 1
  have h1 : ((li + 1 + k : ℕ) : ℚ) - (li : ℚ) = (k : ℚ) + 1 := by push_cast; ring
  have h2 : ((li + 1 + B.length : ℕ) : ℚ) - (li : ℚ) = (B.length : ℚ) + 1 := by
    push_cast; ring
  rw [h1, h2]

/-- Witness for the amended C2: with threshold 120 s, anchor `(0, 0)` and rows
`[None, 60 s]` remaining, the absent row 1 receives the midpoint 30 s. -/
theorem claim_C2_amended_witness :
    (dtLoop 120 [none, some 60] 1 (some (0, 0)) [some 0, none, some 60]).getD 1 none
      = some 30 := by
  have h := claim_C2_amended 120 0 60 0 [none] [] [some 0, none, some 60]
    (by intro x hx; simpa using hx) (by norm_num) (by norm_num) 0 (by norm_num)
  norm_num at h
  simpa using h

/-- An `_fill_range` call over an empty index range (adjacent or inverted
span) writes nothing and leaves the counter unchanged. -/
theorem fillRange_adj (dts : List ℚ) (key : String) (col : List Cell)
    (s e : ℕ) (f : FillFun) (n : ℕ) (h : e ≤ s + 1) :
    fillRange dts key col s e f n = (col, n) := by
  unfold fillRange
  rw [show e - (s + 1) = 0 from by omega, List.range'_zero, List.foldl_nil]

/-- Behaviour of the per-column pass on a three-row column with anchors at
rows 0 and 2 and an absent row 1: the gap is filled (with `fill_between`,
one counted write) exactly when the anchors' time difference is strictly
below `max_time_diff`; otherwise — including at exact equality — the far
branch's two `_fill_range` calls span empty ranges and row 1 stays absent. -/
theorem processKey_gap3 (cfg : FillCfg) (key : String) (t0 tm t2 v0 v2 : ℚ) :
    processKey cfg [t0, tm, t2] key [some v0, none, some v2] 0 =
      some (if t2 - t0 < cfg.max_time_diff
        then ([some v0, cfg.fbt key (some v0) (some v2)
                (if t2 - t0 = 0 then 0 else (tm - t0) / (t2 - t0)), some v2], 1)
        else ([some v0, none, some v2], 0)) := by
  have hidx : (List.range ([some v0, none, some v2] : List Cell).length).filter
      (fun i => (([some v0, none, some v2] : List Cell).getD i none).isSome) = [0, 2] := by rfl
  simp only [processKey, hidx]
  simp only [List.head?_cons, Option.bind_eq_bind, Option.some_bind]
  simp only [beforeBlock, lt_irrefl, if_false, reduceIte, pure, Option.some_bind]
  simp only [List.zip_cons_cons, List.tail_cons, List.zip_nil_right, List.foldl_cons,
    List.foldl_nil]
  simp only [lastBlock, nearBefore, List.range_zero, List.filter_nil, List.min?_nil]
  simp only [pairStep, farRight, farLeft, List.getD_cons_succ, List.getD_cons_zero,
    show List.range' (0 + 1) (2 - (0 + 1)) = [1] from rfl, List.filter_cons, List.filter_nil]
  by_cases h2 : t2 - t0 < cfg.max_time_diff
  · rw [if_pos h2, if_pos h2]
    simp only [fillRange, show (2 : ℕ) - (0 + 1) = 1 from rfl, List.range'_one, List.foldl_cons,
      List.foldl_nil, List.getD_cons_succ, List.getD_cons_zero, List.set]
    rfl
  · rw [if_neg h2, if_neg h2]
    by_cases hA : tm - t0 < cfg.max_time_diff <;>
      by_cases hB : t2 - tm < cfg.max_time_diff <;>
        simp [hA, hB, fillRange_adj]

/-- The timestamp-repair pass fills a gap whose bounding timestamps differ by
exactly the threshold: the skip condition is `abs(dt - last_dt) > max_time_diff`,
so equality falls into the interpolation branch. -/
theorem dtPass_fill_at_threshold (diff t0 : ℚ) (h0 : 0 ≤ diff) :
    dtPass diff [some t0, none, some (t0 + diff)] =
      [some t0, some (t0 + diff / 2), some (t0 + diff)] := by
  unfold dtPass
  simp only [dtLoop]
  rw [show t0 + diff - t0 = diff from by ring]
  rw [if_neg (by rw [abs_of_nonneg h0]; exact lt_irrefl diff)]
  simp only [dtLoop, dtFill, show (2 : ℕ) - (0 + 1) = 1 from rfl, List.range'_one,
    List.foldl_cons, List.foldl_nil, List.set]
  norm_num
  ring

/-- Claim C4, counterexample.  With the default threshold of 120 s, the table
whose only column is `datetime = [0 s, None, 120 s]` has its two present
timestamps exactly `max_time_diff` apart, yet the timestamp-repair pass DOES
treat them as close: the absent row is filled with the midpoint 60 s and kept
(the claim requires it to stay absent and be deleted, since it says a pair at
exactly `max_time_diff` is never close in any branch). -/
theorem claim_C4_counterexample :
    impute defaultCfg ⟨[("datetime", [some 0, none, some 120])]⟩ =
      some (⟨[("datetime", [some 0, some 60, some 120])]⟩, ⟨0, 0, 0, 3, 1⟩) := by
  set_option maxRecDepth 4000 in
  with_unfolding_all decide

/-- Claim C4, amended: the two passes of `impute` use different boundary
conventions.  The timestamp repair pass treats two timestamps as close iff
their absolute difference is at most `max_time_diff` (inclusive: a pair at
exactly the threshold is interpolated), because its test is
`abs(dt - last_dt) > max_time_diff` with a skip on the true branch; the
per-column gap-filling pass treats two anchors as close iff their difference
is strictly less than `max_time_diff`, a pair at exactly the threshold taking
the far branch, which fills nothing across a single-row gap. -/
theorem claim_C4_amended (cfg : FillCfg) (key : String) (t0 tm t2 v0 v2 : ℚ)
    (h0 : 0 ≤ cfg.max_time_diff) :
    dtPass cfg.max_time_diff [some t0, none, some (t0 + cfg.max_time_diff)] =
        [some t0, some (t0 + cfg.max_time_diff / 2), some (t0 + cfg.max_time_diff)] ∧
      (t2 - t0 = cfg.max_time_diff →
        processKey cfg [t0, tm, t2] key [some v0, none, some v2] 0 =
          some ([some v0, none, some v2], 0)) ∧
      (t2 - t0 < cfg.max_time_diff →
        processKey cfg [t0, tm, t2] key [some v0, none, some v2] 0 =
          some ([some v0, cfg.fbt key (some v0) (some v2)
            (if t2 - t0 = 0 then 0 else (tm - t0) / (t2 - t0)), some v2], 1)) := by
  refine ⟨dtPass_fill_at_threshold cfg.max_time_diff t0 h0, ?_, ?_⟩
  · intro he
    rw [processKey_gap3, if_neg (by rw [he]; exact lt_irrefl _)]
  · intro hlt
    rw [processKey_gap3, if_pos hlt]

/-- Witness for the amended C4 with the default configuration: timestamps
`[0, None, 120]` are interpolated at the exact threshold, while a column gap
between anchors exactly 120 s apart is left absent. -/
theorem claim_C4_amended_witness :
    dtPass defaultCfg.max_time_diff
        [some 0, none, some (0 + defaultCfg.max_time_diff)] =
        [some 0, some (0 + defaultCfg.max_time_diff / 2),
          some (0 + defaultCfg.max_time_diff)] ∧
      processKey defaultCfg [0, 60, 120] "x" [some 5, none, some 7] 0 =
        some ([some 5, none, some 7], 0) := by
  have h := claim_C4_amended defaultCfg "x" 0 60 120 5 7 (by norm_num [defaultCfg])
  exact ⟨h.1, h.2.1 (by norm_num [defaultCfg])⟩

/-- Claim C3: evaluation at the failing input.  Table `datetime = [0 s, 30 s]`,
`x = [5, None]` with the default configuration: the last anchor of `x` is row
0, row 1 lies 30 s — well within `max_time_diff = 120 s` — after it, so the
claimed `fill_after` handling would fill `x[1]` with 5 and keep both rows.
The code instead deletes row 1: its "fill last entries according to
'fill_after'" block recomputes the window BEFORE the FIRST anchor
(`range(idx[0])`, empty here since `idx[0] = 0`) instead of the window after
the last anchor, so nothing after the last anchor is ever filled. -/
theorem claim_C3_bug_eval :
    impute defaultCfg ⟨[("datetime", [some 0, some 30]), ("x", [some 5, none])]⟩ =
      some (⟨[("datetime", [some 0]), ("x", [some 5])]⟩, ⟨0, 1, 0, 1, 2⟩) := by
  set_option maxRecDepth 4000 in
  with_unfolding_all decide

/-! ## Length propagation through the pipeline -/

theorem mem_enumFrom_get :
    ∀ (l : List Cell) (k : ℕ) (p : ℕ × Cell), p ∈ List.enumFrom k l →
      ∃ (j : ℕ) (h : j < l.length), p.1 = k + j ∧ l.get ⟨j, h⟩ = p.2 := by
  intro l
  induction l with
  | nil => intro k p hp; simp [List.enumFrom] at hp
  | cons a l ih =>
      intro k p hp
      simp only [List.enumFrom, List.mem_cons] at hp
      rcases hp with hp | hp
      · exact ⟨0, by simp, by simp [hp]⟩
      · obtain ⟨j, h, h1, h2⟩ := ih (k + 1) p hp
        exact ⟨j + 1, by simpa using h, by omega, by simpa using h2⟩

theorem removeIdxs_mem {l : List Cell} {rows : List ℕ} {x : Cell}
    (hx : x ∈ removeIdxs l rows) :
    ∃ (j : ℕ) (h : j < l.length), ¬ j ∈ rows ∧ l.get ⟨j, h⟩ = x := by
  unfold removeIdxs at hx
  simp only [List.mem_map, List.mem_filter] at hx
  obtain ⟨p, ⟨hpe, hpr⟩, hpx⟩ := hx
  obtain ⟨j, h, h1, h2⟩ := mem_enumFrom_get l 0 p (by simpa [List.enum] using hpe)
  refine ⟨j, h, ?_, by rw [h2, hpx]⟩
  simp only [decide_eq_true_eq] at hpr
  have : p.1 = j := by omega
  rw [this] at hpr
  simpa using hpr

theorem enumFrom_filter_len (rows : List ℕ) :
    ∀ (l : List Cell) (k : ℕ),
      ((List.enumFrom k l).filter (fun p => ¬ p.1 ∈ rows)).length =
        ((List.range' k l.length).filter (fun i => ¬ i ∈ rows)).length := by
  intro l
  induction l with
  | nil => intro k; rfl
  | cons a l ih =>
      intro k
      simp only [List.enumFrom, List.length_cons, List.range'_succ, List.filter_cons]
      by_cases hk : k ∈ rows
      · simp only [hk, not_true_eq_false, decide_False, if_false]
        exact ih (k + 1)
      · simp only [hk, not_false_eq_true, decide_True, if_true, List.length_cons]
        rw [ih (k + 1)]

theorem removeIdxs_length (l : List Cell) (rows : List ℕ) :
    (removeIdxs l rows).length = remLen l.length rows := by
  unfold removeIdxs remLen
  rw [List.length_map, List.enum, enumFrom_filter_len, List.range_eq_range']

theorem lookup_mem {d : Data} {k : String} {v : List Cell}
    (h : d.lookup k = some v) : (k, v) ∈ d.cols := by
  unfold Data.lookup at h
  cases hf : d.cols.find? (fun c => c.1 = k) with
  | none => rw [hf] at h; simp at h
  | some c =>
      rw [hf] at h
      have h2 : c.2 = v := by simpa using h
      have hm := List.mem_of_find?_eq_some hf
      have hk := List.find?_some hf
      simp only [decide_eq_true_eq] at hk
      have hc : c = (k, v) := by
        obtain ⟨c1, c2⟩ := c
        simp only at hk h2
        rw [hk, h2]
      rwa [hc] at hm

theorem farRight_length (cfg : FillCfg) (dts : List ℚ) (key : String)
    (p : ℕ × ℕ) (acc : List Cell × ℕ) :
    ((farRight cfg dts key p acc).1).length = acc.1.length := by
  unfold farRight
  cases ((List.range' (p.1 + 1) (p.2 - (p.1 + 1))).filter
      (fun i => dts.getD i 0 - dts.getD p.1 0 < cfg.max_time_diff)).max? with
  | none => rfl
  | some lastR => exact fillRange_length dts key acc.1 p.1 lastR cfg.fa acc.2

theorem farLeft_length (cfg : FillCfg) (dts : List ℚ) (key : String)
    (p : ℕ × ℕ) (acc : List Cell × ℕ) :
    ((farLeft cfg dts key p acc).1).length = acc.1.length := by
  unfold farLeft
  cases ((List.range' (p.1 + 1) (p.2 - (p.1 + 1))).filter
      (fun i => dts.getD p.2 0 - dts.getD i 0 < cfg.max_time_diff)).min? with
  | none => rfl
  | some firstL => exact fillRange_length dts key acc.1 firstL p.2 cfg.fb acc.2

theorem pairStep_length (cfg : FillCfg) (dts : List ℚ) (key : String)
    (acc : List Cell × ℕ) (p : ℕ × ℕ) :
    ((pairStep cfg dts key acc p).1).length = acc.1.length := by
  unfold pairStep
  by_cases h1 : dts.getD p.2 0 - dts.getD p.1 0 < cfg.max_time_diff
  · rw [if_pos h1]
    exact fillRange_length dts key acc.1 p.1 p.2 cfg.fbt acc.2
  · rw [if_neg h1, farLeft_length, farRight_length]

theorem pairsFold_length (cfg : FillCfg) (dts : List ℚ) (key : String) :
    ∀ (pl : List (ℕ × ℕ)) (acc : List Cell × ℕ),
      ((pl.foldl (pairStep cfg dts key) acc).1).length = acc.1.length := by
  intro pl
  induction pl with
  | nil => intro acc; rfl
  | cons p pl ih =>
      intro acc
      rw [List.foldl_cons, ih, pairStep_length]

theorem beforeBlock_length {cfg : FillCfg} {dts : List ℚ} {key : String}
    {col0 : List Cell} {nF0 i0 : ℕ} {st : List Cell × ℕ × Option ℕ}
    (h : beforeBlock cfg dts key col0 nF0 i0 = some st) :
    st.1.length = col0.length := by
  unfold beforeBlock at h
  by_cases h0 : 0 < i0
  · rw [if_pos h0] at h
    cases hm : (nearBefore cfg dts i0).min? with
    | none => rw [hm] at h; simp at h
    | some s =>
        rw [hm] at h
        simp only [Option.bind_eq_bind, Option.some_bind, pure, Option.some_inj] at h
        rw [← h]
        exact fillRange_length dts key col0 s i0 cfg.fb nF0
  · rw [if_neg h0] at h
    simp only [pure, Option.some_inj] at h
    rw [← h]

theorem lastBlock_length {cfg : FillCfg} {dts : List ℚ} {key : String}
    {i0 : ℕ} {s? : Option ℕ} {pr r : List Cell × ℕ}
    (h : lastBlock cfg dts key i0 s? pr = some r) :
    r.1.length = pr.1.length := by
  unfold lastBlock at h
  cases hm : (nearBefore cfg dts i0).min? with
  | none =>
      rw [hm] at h
      simp only [pure, Option.some_inj] at h
      rw [← h]
  | some e =>
      rw [hm] at h
      cases s? with
      | none => simp at h
      | some s =>
          simp only [Option.bind_eq_bind, Option.some_bind, pure, Option.some_inj] at h
          rw [← h]
          exact fillRange_length dts key pr.1 s e cfg.fa pr.2

theorem processKey_length {cfg : FillCfg} {dts : List ℚ} {key : String}
    {col : List Cell} {n : ℕ} {r : List Cell × ℕ}
    (h : processKey cfg dts key col n = some r) : r.1.length = col.length := by
  unfold processKey at h
  simp only [Option.bind_eq_bind] at h
  cases hh : ((List.range col.length).filter
      (fun i => (col.getD i none).isSome)).head? with
  | none => rw [hh] at h; simp at h
  | some i0 =>
      rw [hh] at h
      simp only [Option.some_bind] at h
      cases hb : beforeBlock cfg dts key col n i0 with
      | none => rw [hb] at h; simp at h
      | some st =>
          rw [hb] at h
          simp only [Option.some_bind] at h
          rw [lastBlock_length h, pairsFold_length]
          exact beforeBlock_length hb

theorem dtPass_length (diff : ℚ) (l : List Cell) :
    (dtPass diff l).length = l.length := by
  unfold dtPass
  exact dtLoop_length diff l 0 none l

theorem colsFold_len (cfg : FillCfg) (dts : List ℚ) (n : ℕ) :
    ∀ (cols : List (String × List Cell)) (acc : List (String × List Cell) × ℕ)
      (res : List (String × List Cell) × ℕ),
      cols.foldlM (colStep cfg dts) acc = some res →
      (∀ c ∈ cols, c.2.length = n) → (∀ c ∈ acc.1, c.2.length = n) →
      ∀ c ∈ res.1, c.2.length = n := by
  intro cols
  induction cols with
  | nil =>
      intro acc res h _ hacc
      simp only [List.foldlM_nil, pure, Option.some_inj] at h
      rw [← h]
      exact hacc
  | cons c cols ih =>
      intro acc res h hcols hacc
      rw [List.foldlM_cons] at h
      cases hcs : colStep cfg dts acc c with
      | none => rw [hcs] at h; simp at h
      | some acc1 =>
          rw [hcs] at h
          simp only [Option.bind_eq_bind, Option.some_bind] at h
          refine ih acc1 res h (fun c' hc' => hcols c' (by simp [hc'])) ?_
          intro c' hc'
          unfold colStep at hcs
          by_cases hdt : c.1 = "datetime"
          · rw [if_pos hdt] at hcs
            simp only [pure, Option.some_inj] at hcs
            rw [← hcs] at hc'
            simp only [List.mem_append, List.mem_singleton] at hc'
            rcases hc' with hc' | hc'
            · exact hacc c' hc'
            · rw [hc']; exact hcols c (by simp)
          · rw [if_neg hdt] at hcs
            cases hpk : processKey cfg dts c.1 c.2 acc.2 with
            | none => rw [hpk] at hcs; simp at hcs
            | some r =>
                rw [hpk] at hcs
                simp only [Option.bind_eq_bind, Option.some_bind, pure,
                  Option.some_inj] at hcs
                rw [← hcs] at hc'
                simp only [List.mem_append, List.mem_singleton] at hc'
                rcases hc' with hc' | hc'
                · exact hacc c' hc'
                · rw [hc']
                  show r.1.length = n
                  rw [processKey_length hpk]
                  exact hcols c (by simp)

/-- The final deletion of `impute` (lines 240-246) leaves no absence marker:
every row of common length `dlen` that still holds a `none` in some column is
in the removed index set. -/
theorem delete_noNone (d4 : Data) (dlen : ℕ)
    (hlen : ∀ c ∈ d4.cols, c.2.length = dlen) :
    ∀ c ∈ (d4.delete ((List.range dlen).filter
        (fun i => d4.cols.any (fun c => c.2.getD i none = none)))).cols,
      ∀ x ∈ c.2, x ≠ none := by
  intro c hc x hx hxn
  unfold Data.delete at hc
  simp only [List.mem_map] at hc
  obtain ⟨c0, hc0, hceq⟩ := hc
  have hx' : x ∈ removeIdxs c0.2
      ((List.range dlen).filter
        (fun i => d4.cols.any (fun c => c.2.getD i none = none))) := by
    rw [← hceq] at hx
    exact hx
  obtain ⟨j, hj, hjR, hjx⟩ := removeIdxs_mem hx'
  apply hjR
  rw [List.mem_filter]
  constructor
  · rw [List.mem_range]
    rw [hlen c0 hc0] at hj
    exact hj
  · simp only [List.any_eq_true, decide_eq_true_eq]
    refine ⟨c0, hc0, ?_⟩
    have : c0.2.getD j none = x := by
      rw [List.getD_eq_getElem?_getD, List.getElem?_eq_getElem hj]
      simp only [Option.getD_some]
      rw [← hjx]
      rfl
    rw [this, hxn]

/-- Every column of a table produced by `imputePhase2` contains no absence
marker (provided the input columns share a common length). -/
theorem imputePhase2_noNone {cfg : FillCfg} {a b : ℕ} {d3 d1 : Data}
    {s : ImputeStats} {n : ℕ}
    (hlen3 : ∀ c ∈ d3.cols, c.2.length = n)
    (h : imputePhase2 cfg a b d3 = some (d1, s)) :
    ∀ c ∈ d1.cols, ∀ x ∈ c.2, x ≠ none := by
  unfold imputePhase2 at h
  simp only [Option.bind_eq_bind] at h
  cases hl : d3.lookup "datetime" with
  | none => rw [hl] at h; simp at h
  | some dl =>
      rw [hl] at h
      simp only [Option.some_bind] at h
      cases hfold : d3.cols.foldlM (colStep cfg (dl.map (fun o => o.getD 0))) ([], 0) with
      | none => rw [hfold] at h; simp at h
      | some res =>
          rw [hfold] at h
          simp only [Option.some_bind, pure, Option.some_inj, Prod.mk.injEq] at h
          obtain ⟨hd1, _⟩ := h
          rw [← hd1]
          have hdln : dl.length = n := hlen3 _ (lookup_mem hl)
          have hlen4 : ∀ c ∈ res.1, c.2.length = dl.length := by
            rw [hdln]
            exact colsFold_len _ _ _ _ _ _ hfold hlen3 (by intro c hc; simp at hc)
          exact delete_noNone ⟨res.1⟩ dl.length hlen4

/-- The columns of the table passed to `imputePhase2` by `impute` share a
common length when the input table is well-formed. -/
theorem imputeD3_len {cfg : FillCfg} {d0 : Data} {dts0 : List Cell}
    (hlen0 : ∀ c ∈ d0.cols, c.2.length = d0.n_rows)
    (hl1 : (d0.strip).lookup "datetime" = some dts0) :
    ∀ c ∈ ((d0.strip.setCol "datetime" (dtPass cfg.max_time_diff dts0)).delete
        ((List.range (dtPass cfg.max_time_diff dts0).length).filter
          (fun i => (dtPass cfg.max_time_diff dts0).getD i none = none))).cols,
      c.2.length =
        remLen d0.n_rows
          ((List.range (dtPass cfg.max_time_diff dts0).length).filter
            (fun i => (dtPass cfg.max_time_diff dts0).getD i none = none)) := by
  have hlen2 : ∀ c ∈ (d0.strip.setCol "datetime"
      (dtPass cfg.max_time_diff dts0)).cols, c.2.length = d0.n_rows := by
    intro c hc
    unfold Data.setCol at hc
    simp only [List.mem_map] at hc
    obtain ⟨c0, hc0, hceq⟩ := hc
    have hc0' : c0 ∈ d0.cols := List.mem_of_mem_filter hc0
    by_cases hk : c0.1 = "datetime"
    · rw [if_pos hk] at hceq
      rw [← hceq]
      show (dtPass cfg.max_time_diff dts0).length = d0.n_rows
      rw [dtPass_length]
      have hmem : ("datetime", dts0) ∈ d0.cols := List.mem_of_mem_filter (lookup_mem hl1)
      exact hlen0 _ hmem
    · rw [if_neg hk] at hceq
      rw [← hceq]
      exact hlen0 _ hc0'
  intro c hc
  unfold Data.delete at hc
  simp only [List.mem_map] at hc
  obtain ⟨c0, hc0, hceq⟩ := hc
  rw [← hceq]
  show (removeIdxs c0.2 _).length = _
  rw [removeIdxs_length, hlen2 _ hc0]

/-- Whenever `impute` returns normally on a well-formed table, the returned
table contains no absence marker. -/
theorem impute_noNone (cfg : FillCfg) (d0 d1 : Data) (s : ImputeStats)
    (hWF : d0.WF) (h : impute cfg d0 = some (d1, s)) :
    ∀ c ∈ d1.cols, ∀ x ∈ c.2, x ≠ none := by
  obtain ⟨_, hlen0⟩ := hWF
  unfold impute at h
  simp only [Option.bind_eq_bind] at h
  cases hl1 : (d0.strip).lookup "datetime" with
  | none => rw [hl1] at h; simp at h
  | some dts0 =>
      rw [hl1] at h
      simp only [Option.some_bind] at h
      exact imputePhase2_noNone (imputeD3_len hlen0 hl1) h

/-- Claim C1: whenever `impute` returns normally on a well-formed table, the
returned table contains no absence marker — the final pass deletes every row
still holding a `None` in any column, so every stored value of every
remaining column is present. -/
theorem claim_C1 (cfg : FillCfg) (d0 d1 : Data) (s : ImputeStats)
    (hWF : d0.WF) (h : impute cfg d0 = some (d1, s)) :
    ∀ c ∈ d1.cols, ∀ x ∈ c.2, x ≠ none :=
  impute_noNone cfg d0 d1 s hWF h

/-- Witness for C1: a concrete two-row table on which `impute` succeeds (and
happens to change nothing); the postcondition instantiated at the output's
`x` column and its first cell. -/
theorem claim_C1_witness : (some (5 : ℚ)) ≠ none := by
  have h := claim_C1 defaultCfg
    ⟨[("datetime", [some 0, some 60]), ("x", [some 5, some 6])]⟩
    ⟨[("datetime", [some 0, some 60]), ("x", [some 5, some 6])]⟩
    ⟨0, 0, 0, 2, 2⟩ (by decide)
    (by set_option maxRecDepth 4000 in with_unfolding_all decide)
  exact h ("x", [some 5, some 6]) (by decide) (some 5) (by decide)

/-! ## Convex-hull claims -/

/-- Claim C9: in `_determine_convex_hull` of `_plotting.py`, any slice with at
least 3 points reaches `conv = _convex_hull_polar(w, b)` where neither `w`
nor `b` is bound (the loop variables are `wa`/`bsp` and the module has no
global of either name), raising `NameError`; consequently the function
returns normally exactly when every slice has fewer than 3 points, in which
case the slices are passed through unchanged. -/
theorem claim_C9 (slices : List (List ℚ × List ℚ)) :
    ((∀ s ∈ slices, s.1.length < 3) →
      determineConvexHull slices =
        Except.ok (slices.map (fun s => s.1), slices.map (fun s => s.2))) ∧
    ((∃ s ∈ slices, 3 ≤ s.1.length) →
      determineConvexHull slices = Except.error "NameError: name w is not defined") := by
  induction slices with
  | nil =>
      refine ⟨fun _ => rfl, ?_⟩
      rintro ⟨s, hs, _⟩
      simp at hs
  | cons s rest ih =>
      constructor
      · intro hall
        have hs : s.1.length < 3 := hall s (by simp)
        show (if s.1.length < 3 then _ else _) = _
        rw [if_pos hs, ih.1 (fun t ht => hall t (by simp [ht]))]
        simp
      · rintro ⟨t, ht, h3⟩
        show (if s.1.length < 3 then _ else _) = _
        rcases List.mem_cons.mp ht with rfl | htr
        · rw [if_neg (by omega)]
        · by_cases hs : s.1.length < 3
          · rw [if_pos hs, ih.2 ⟨t, htr, h3⟩]
          · rw [if_neg hs]

/-- Witness for C9: one slice of 3 points raises the name error; one slice of
2 points passes through unchanged. -/
theorem claim_C9_witness :
    determineConvexHull [([0, 45, 90], [1, 1, 1])] =
        Except.error "NameError: name w is not defined" ∧
      determineConvexHull [([(0 : ℚ), 315], [1, 1])] =
        Except.ok ([[0, 315]], [[1, 1]]) := by
  constructor
  · exact (claim_C9 [([0, 45, 90], [1, 1, 1])]).2
      ⟨([0, 45, 90], [1, 1, 1]), by simp, by norm_num⟩
  · have h := (claim_C9 [([(0 : ℚ), 315], [1, 1])]).1 (by
      intro t ht
      simp only [List.mem_singleton] at ht
      rw [ht]
      norm_num)
    simpa using h

theorem sortNat_sorted (l : List ℕ) : (sortNat l).Sorted (· ≤ ·) :=
  List.sorted_insertionSort _ l

theorem sortNat_mem {l : List ℕ} {i : ℕ} : i ∈ sortNat l ↔ i ∈ l :=
  List.mem_insertionSort _

theorem getD_eq_get {α : Type} (wa : List α) (dflt : α) (n : ℕ) (hn : n < wa.length) :
    wa.getD n dflt = wa.get ⟨n, hn⟩ := by
  rw [List.getD_eq_getElem?_getD, List.getElem?_eq_getElem hn]
  rfl

/-- Selecting entries of an angle-sorted list along a sorted, in-bounds index
list yields a sorted list. -/
theorem map_getD_sorted (wa : List ℚ) (hsort : wa.Sorted (· ≤ ·)) (idxs : List ℕ)
    (hs : idxs.Sorted (· ≤ ·)) (hv : ∀ i ∈ idxs, i < wa.length) :
    (idxs.map (fun i => wa.getD i 0)).Sorted (· ≤ ·) := by
  rw [List.Sorted, List.pairwise_map]
  refine List.Pairwise.imp_of_mem ?_ hs
  intro i j hi hj hij
  have hiw := hv i hi
  have hjw := hv j hj
  rw [getD_eq_get wa 0 i hiw, getD_eq_get wa 0 j hjw]
  rcases eq_or_lt_of_le hij with rfl | hlt
  · rfl
  · exact hsort.rel_get_of_lt hlt

/-- Claim C7, counterexample.  The hull primitive answer `[0, 1, 2]` is the
true vertex set for the slice `wa = [0, 45, 135]`, `bsp = [1, 1, 1]` (the
three projected points are not collinear, so all are hull vertices).
`_get_convex_hull` of `plotting.py` then appends the FIRST vertex again
(`xs.append(xs[0])`), producing angle sequence `[0, 45, 135, 0]` — not
non-decreasing, and containing no wraparound duplicate at 360. -/
theorem claim_C7_counterexample :
    getConvexHullPlotting (fun _ => [0, 1, 2]) [0, 45, 135] [1, 1, 1] =
        some ([0, 45, 135, 0], [1, 1, 1, 1]) ∧
      ¬ ([(0 : ℚ), 45, 135, 0].Sorted (· ≤ ·)) ∧
      ¬ ((360 : ℚ) ∈ [(0 : ℚ), 45, 135, 0]) := by
  refine ⟨by rfl, ?_, by decide⟩
  intro hs
  have h1 := (List.sorted_cons.mp hs).2
  have h2 := (List.sorted_cons.mp h1).2
  have h3 := (List.sorted_cons.mp h2).1 0 (by simp)
  norm_num at h3

/-- Claim C7, amended: for every slice whose angles are fed to
`_get_convex_hull` already sorted (as its caller `plot_convex_hull` arranges
via `_sort_data`) and whose hull primitive answers in-bounds vertex indices,
the returned angle sequence is non-decreasing except for its final element,
which repeats the first (minimal-angle) vertex — the polygon is closed by
repeating the initial angle, not by a duplicate expressed at 360. -/
theorem claim_C7_amended (hull : List (ℚ × ℚ) → List ℕ) (wa bsp : List ℚ)
    (r : List ℚ × List ℚ)
    (hsort : wa.Sorted (· ≤ ·))
    (hv : ∀ i ∈ hull (wa.zip bsp), i < wa.length)
    (h : getConvexHullPlotting hull wa bsp = some r) :
    r.1.dropLast.Sorted (· ≤ ·) ∧ r.1.getLast? = r.1.head? := by
  simp only [getConvexHullPlotting] at h
  cases hx : ((sortNat (hull (wa.zip bsp))).map (fun i => wa.getD i 0)).head? with
  | none => rw [hx] at h; simp at h
  | some x0 =>
      rw [hx] at h
      cases hy : ((sortNat (hull (wa.zip bsp))).map (fun i => bsp.getD i 0)).head? with
      | none => rw [hy] at h; simp at h
      | some y0 =>
          rw [hy] at h
          simp only [Option.some_inj] at h
          rw [← h]
          have hxs : ((sortNat (hull (wa.zip bsp))).map
              (fun i => wa.getD i 0)).Sorted (· ≤ ·) :=
            map_getD_sorted wa hsort _ (sortNat_sorted _)
              (fun i hi => hv i (sortNat_mem.mp hi))
          refine ⟨?_, ?_⟩
          · simp only [List.dropLast_concat]
            exact hxs
          · rw [List.getLast?_concat]
            simp only [List.head?_append, hx]
            rfl

/-- Witness for the amended C7: primitive answer `[2, 0, 1]` on a sorted
3-point slice; the output angles are `[10, 20, 30, 10]`, sorted except for
the final closing repetition of the head. -/
theorem claim_C7_amended_witness :
    ([(10 : ℚ), 20, 30, 10] : List ℚ).dropLast.Sorted (· ≤ ·) ∧
      ([(10 : ℚ), 20, 30, 10] : List ℚ).getLast? =
        ([(10 : ℚ), 20, 30, 10] : List ℚ).head? := by
  have h := claim_C7_amended (fun _ => [2, 0, 1]) [10, 20, 30] [1, 1, 1]
    ([10, 20, 30, 10], [1, 1, 1, 1]) (by norm_num) (by decide) (by rfl)
  simpa using h

theorem sortRows_perm (l : List HullPt) : List.Perm (sortRows l) l :=
  List.perm_insertionSort rowLE l

theorem sortRows_sorted (l : List HullPt) : (sortRows l).Pairwise rowLE :=
  List.sorted_insertionSort rowLE l

theorem buildRows_triple :
    ∀ (wa ws bsp : List ℚ) (inf : List (Option String)),
      ws.length = wa.length → bsp.length = wa.length →
      (buildRows ws wa bsp inf).map (fun r => (r.ws, r.wa, r.bsp)) =
        ws.zip (wa.zip bsp) := by
  intro wa
  induction wa with
  | nil =>
      intro ws bsp inf hw hb
      rw [List.length_nil, List.length_eq_zero] at hw hb
      subst hw; subst hb
      rfl
  | cons a wa ih =>
      intro ws bsp inf hw hb
      cases ws with
      | nil => simp at hw
      | cons w ws =>
          cases bsp with
          | nil => simp at hb
          | cons b bsp =>
              simp only [List.length_cons, Nat.succ_inj] at hw hb
              simp only [buildRows, List.map_cons, List.zip_cons_cons]
              rw [ih ws bsp inf.tail hw hb]

theorem buildRows_length (ws wa bsp : List ℚ) (inf : List (Option String))
    (hw : ws.length = wa.length) (hb : bsp.length = wa.length) :
    (buildRows ws wa bsp inf).length = wa.length := by
  have h := congrArg List.length (buildRows_triple wa ws bsp inf hw hb)
  rw [List.length_map, List.length_zip, List.length_zip, hw, hb] at h
  simpa using h

/-- Claim C5 (spec-modelled, `hrosailing.plotting.projections._get_convex_hull`
is not in `src/`): with zero points the extractor returns empty results (info
staying `none` when none was supplied); with fewer than 3 points, or when the
hull collaborator fails (`none`), it returns the original points unchanged up
to the stable sort by angle — the output angle sequence is sorted and the
output (ws, wa, bsp) triples are a permutation of the input triples — and,
being a total function, it propagates no error to the caller. -/
theorem claim_C5 (hull : List (ℚ × ℚ) → Option (List ℕ)) (ws wa bsp : List ℚ)
    (info : Option (List String))
    (hw : ws.length = wa.length) (hb : bsp.length = wa.length)
    (hdeg : wa.length < 3 ∨
      hull ((sortRows (buildRows ws wa bsp (infoEntries info))).map
        (fun r => (r.wa, r.bsp))) = none) :
    (ws = [] → getConvexHullProjections hull ws wa bsp info =
        ([], [], [], info.map (fun _ => []))) ∧
    ((getConvexHullProjections hull ws wa bsp info).2.1).Sorted (· ≤ ·) ∧
    List.Perm
      ((getConvexHullProjections hull ws wa bsp info).1.zip
        (((getConvexHullProjections hull ws wa bsp info).2.1).zip
          ((getConvexHullProjections hull ws wa bsp info).2.2.1)))
      (ws.zip (wa.zip bsp)) := by
  have hlen0 : (buildRows ws wa bsp (infoEntries info)).length = wa.length :=
    buildRows_length ws wa bsp (infoEntries info) hw hb
  have hlenr : (sortRows (buildRows ws wa bsp (infoEntries info))).length = wa.length :=
    (sortRows_perm _).length_eq.trans hlen0
  have hred : getConvexHullProjections hull ws wa bsp info =
      rowsOut (sortRows (buildRows ws wa bsp (infoEntries info))) info := by
    simp only [getConvexHullProjections]
    by_cases h3 : (sortRows (buildRows ws wa bsp (infoEntries info))).length < 3
    · rw [if_pos h3]
    · rw [if_neg h3]
      rcases hdeg with h | h
      · exact absurd (hlenr ▸ h) h3
      · rw [h]
  refine ⟨?_, ?_, ?_⟩
  · intro hws
    subst hws
    have hwa : wa = [] := by
      rw [List.length_nil] at hw
      exact List.length_eq_zero.mp hw.symm
    subst hwa
    have hbsp : bsp = [] := List.length_eq_zero.mp hb
    subst hbsp
    cases info <;> rfl
  · rw [hred]
    show ((sortRows (buildRows ws wa bsp (infoEntries info))).map
        (fun r => r.wa)).Sorted (· ≤ ·)
    rw [List.Sorted, List.pairwise_map]
    exact sortRows_sorted _
  · rw [hred]
    show List.Perm
      (((sortRows (buildRows ws wa bsp (infoEntries info))).map (fun r => r.ws)).zip
        (((sortRows (buildRows ws wa bsp (infoEntries info))).map (fun r => r.wa)).zip
          ((sortRows (buildRows ws wa bsp (infoEntries info))).map (fun r => r.bsp)))) _
    rw [List.zip_map', List.zip_map']
    have hp : List.Perm
        ((sortRows (buildRows ws wa bsp (infoEntries info))).map
          (fun r => (r.ws, r.wa, r.bsp)))
        ((buildRows ws wa bsp (infoEntries info)).map (fun r => (r.ws, r.wa, r.bsp))) :=
      (sortRows_perm _).map _
    rw [buildRows_triple wa ws bsp _ hw hb] at hp
    exact hp

/-- Witness for C5 at the two-point slice of the repository's
`test_QHullError_in_ConvexHull` test, with a hull collaborator that fails as
scipy's does there. -/
theorem claim_C5_witness :
    (([1, 2] : List ℚ) = [] → getConvexHullProjections (fun _ => none) [1, 2] [0, 315] [1, 1] none =
        ([], [], [], Option.map (fun _ => ([] : List (Option String)))
          (none : Option (List String)))) ∧
    ((getConvexHullProjections (fun _ => none) [1, 2] [0, 315] [1, 1] none).2.1).Sorted (· ≤ ·) ∧
    List.Perm
      ((getConvexHullProjections (fun _ => none) [1, 2] [0, 315] [1, 1] none).1.zip
        (((getConvexHullProjections (fun _ => none) [1, 2] [0, 315] [1, 1] none).2.1).zip
          ((getConvexHullProjections (fun _ => none) [1, 2] [0, 315] [1, 1] none).2.2.1)))
      (([1, 2] : List ℚ).zip (([0, 315] : List ℚ).zip ([1, 1] : List ℚ))) :=
  claim_C5 (fun _ => none) [1, 2] [0, 315] [1, 1] none (by norm_num) (by norm_num)
    (Or.inl (by norm_num))

/-- Claim C6 (spec-modelled; Scenario B): for the slice
`wa = [0, 45, 90, 135, 180, 270]`, `bsp = [1, 1, 0, 1, 1, 1]` (with
`ws = [1..6]` as in the repository's `test_wa_given_at_0`), the hull
collaborator's vertex set `{0, 1, 3, 4, 5}` — the wa = 90 sample projects to
the origin, strictly inside the hull of the other five points, which is what
the repository's test records — leads to an output that excludes the wa = 90
point and appends a seam-closing duplicate of the wa = 0 vertex at 360°, with
equal boat speed 1 (and equal wind speed 1). -/
theorem claim_C6 (hull : List (ℚ × ℚ) → Option (List ℕ))
    (hh : hull [((0 : ℚ), (1 : ℚ)), (45, 1), (90, 0), (135, 1), (180, 1), (270, 1)] =
      some [0, 1, 3, 4, 5]) :
    getConvexHullProjections hull [1, 2, 3, 4, 5, 6] [0, 45, 90, 135, 180, 270]
        [1, 1, 0, 1, 1, 1] none =
      ([1, 2, 4, 5, 6, 1], [0, 45, 135, 180, 270, 360], [1, 1, 1, 1, 1, 1], none) := by
  have hrows : sortRows (buildRows [1, 2, 3, 4, 5, 6] [0, 45, 90, 135, 180, 270]
      [1, 1, 0, 1, 1, 1] (infoEntries none)) =
      [⟨1, 0, 1, none⟩, ⟨2, 45, 1, none⟩, ⟨3, 90, 0, none⟩, ⟨4, 135, 1, none⟩,
        ⟨5, 180, 1, none⟩, ⟨6, 270, 1, none⟩] := by decide
  simp only [getConvexHullProjections, hrows]
  rw [if_neg (by norm_num)]
  rw [show ([⟨1, 0, 1, none⟩, ⟨2, 45, 1, none⟩, ⟨3, 90, 0, none⟩, ⟨4, 135, 1, none⟩,
      ⟨5, 180, 1, none⟩, ⟨6, 270, 1, none⟩] : List HullPt).map (fun r => (r.wa, r.bsp)) =
      [((0 : ℚ), (1 : ℚ)), (45, 1), (90, 0), (135, 1), (180, 1), (270, 1)] from rfl]
  rw [hh]
  with_unfolding_all decide

/-- Witness for C6: the hypothesis discharged by the concrete hull
collaborator answering the recorded vertex set on exactly the Scenario B
point set. -/
theorem claim_C6_witness :
    getConvexHullProjections
        (fun pts => if pts = [((0 : ℚ), (1 : ℚ)), (45, 1), (90, 0), (135, 1), (180, 1), (270, 1)]
          then some [0, 1, 3, 4, 5] else none)
        [1, 2, 3, 4, 5, 6] [0, 45, 90, 135, 180, 270] [1, 1, 0, 1, 1, 1] none =
      ([1, 2, 4, 5, 6, 1], [0, 45, 135, 180, 270, 360], [1, 1, 1, 1, 1, 1], none) := by
  apply claim_C6
  rw [if_pos rfl]

/-! ## Fixed-point analysis of `impute` on complete tables (claim C8) -/

theorem strip_eq_self (d : Data)
    (h : ∀ c ∈ d.cols, c.2.any (fun x => x.isSome) = true) : d.strip = d := by
  unfold Data.strip
  rw [List.filter_eq_self.mpr h]

theorem removeIdxs_nil (l : List Cell) : removeIdxs l [] = l := by
  unfold removeIdxs
  rw [List.filter_eq_self.mpr (by intro a _; simp), List.enum_map_snd]

theorem delete_nil (d : Data) : d.delete [] = d := by
  unfold Data.delete
  have hmap : ∀ (cols : List (String × List Cell)),
      cols.map (fun c => (c.1, removeIdxs c.2 [])) = cols := by
    intro cols
    induction cols with
    | nil => rfl
    | cons c t ih => rw [List.map_cons, removeIdxs_nil, ih]
  rw [hmap]

theorem filter_none_empty (l : List Cell) (h : ∀ x ∈ l, x ≠ none) :
    (List.range l.length).filter (fun i => l.getD i none = none) = [] := by
  rw [List.filter_eq_nil_iff]
  intro i hi
  rw [List.mem_range] at hi
  simp only [decide_eq_true_eq]
  rw [getD_eq_get l none i hi]
  exact h (l.get ⟨i, hi⟩) (l.get_mem _ _)

/-- With distinct keys, the column found by `lookup` is the only one with its
key. -/
theorem lookup_unique :
    ∀ (cols : List (String × List Cell)) (k : String) (v : List Cell),
      (cols.map Prod.fst).Nodup →
      ((cols.find? (fun c => c.1 = k)).map (fun c => c.2)) = some v →
      ∀ c ∈ cols, c.1 = k → c.2 = v := by
  intro cols
  induction cols with
  | nil => intro k v _ h; simp at h
  | cons c0 t ih =>
      intro k v hnd h c hc hck
      rw [List.map_cons, List.nodup_cons] at hnd
      by_cases h0 : c0.1 = k
      · rw [List.find?_cons_of_pos _ (by simpa using h0)] at h
        rcases List.mem_cons.mp hc with rfl | hct
        · simpa using h
        · exfalso
          apply hnd.1
          rw [h0, ← hck]
          exact List.mem_map_of_mem Prod.fst hct
      · rw [List.find?_cons_of_neg _ (by simpa using h0)] at h
        rcases List.mem_cons.mp hc with rfl | hct
        · exact absurd hck h0
        · exact ih k v hnd.2 h c hct hck

/-- Re-assigning the looked-up value of a key is the identity on tables with
distinct keys. -/
theorem setCol_self (d : Data) (k : String) (v : List Cell)
    (hnd : (d.cols.map Prod.fst).Nodup) (h : d.lookup k = some v) :
    d.setCol k v = d := by
  unfold Data.setCol
  have hu := lookup_unique d.cols k v hnd h
  have hmap : ∀ (cols : List (String × List Cell)),
      (∀ c ∈ cols, c.1 = k → c.2 = v) →
      cols.map (fun c => if c.1 = k then (c.1, v) else c) = cols := by
    intro cols hcols
    induction cols with
    | nil => rfl
    | cons c t iht =>
        rw [List.map_cons, iht (fun c2 hc2 h2 => hcols c2 (by simp [hc2]) h2)]
        by_cases hck : c.1 = k
        · rw [if_pos hck, ← hcols c (by simp) hck]
        · rw [if_neg hck]
  rw [hmap d.cols hu]

/-- The timestamp scan never writes on an all-present column whose values are
non-decreasing: the anchor either advances along adjacent rows (empty fill
span) or sticks forever once a far jump occurs. -/
theorem dtLoop_no_write (diff : ℚ) :
    ∀ (L : List Cell) (i : ℕ) (st : Option (ℚ × ℕ)) (acc : List Cell),
      (∀ x ∈ L, x ≠ none) →
      L.Pairwise (fun a b => a.getD 0 ≤ b.getD 0) →
      (match st with
       | none => True
       | some (t, j) =>
           (j + 1 = i ∨ ∀ x ∈ L, x.getD 0 - t > diff) ∧ ∀ x ∈ L, t ≤ x.getD 0) →
      dtLoop diff L i st acc = acc := by
  intro L
  induction L with
  | nil => intro i st acc _ _ _; rfl
  | cons x rest ih =>
      intro i st acc hnone hsort hinv
      obtain ⟨v, rfl⟩ : ∃ v, x = some v := by
        cases x with
        | none => exact absurd rfl (hnone none (by simp))
        | some v => exact ⟨v, rfl⟩
      rw [List.pairwise_cons] at hsort
      cases st with
      | none =>
          show dtLoop diff rest (i + 1) (some (v, i)) acc = acc
          refine ih (i + 1) _ acc (fun y hy => hnone y (by simp [hy])) hsort.2 ?_
          refine ⟨Or.inl rfl, ?_⟩
          intro y hy
          simpa using hsort.1 y hy
      | some p =>
          obtain ⟨t, j⟩ := p
          obtain ⟨hj, hle⟩ := hinv
          have htv : t ≤ v := by simpa using hle (some v) (by simp)
          rcases hj with hji | hfar
          · by_cases hd : |v - t| > diff
            · simp only [dtLoop, if_pos hd]
              refine ih (i + 1) _ acc (fun y hy => hnone y (by simp [hy])) hsort.2 ?_
              refine ⟨Or.inr ?_, fun y hy => le_trans (hle y (by simp [hy])) (le_refl _)⟩
              intro y hy
              have hvy : v ≤ y.getD 0 := hsort.1 y hy
              have : v - t > diff := lt_of_lt_of_le hd (by rw [abs_of_nonneg (by linarith)])
              linarith
            · simp only [dtLoop, if_neg hd]
              have hfe : dtFill t j v i acc = acc := by
                unfold dtFill
                rw [show i - (j + 1) = 0 from by omega, List.range'_zero, List.foldl_nil]
              rw [hfe]
              refine ih (i + 1) _ acc (fun y hy => hnone y (by simp [hy])) hsort.2 ?_
              exact ⟨Or.inl rfl, fun y hy => hsort.1 y hy⟩
          · have hvfar : v - t > diff := by simpa using hfar (some v) (by simp)
            have hd : |v - t| > diff := lt_of_lt_of_le hvfar (le_abs_self _)
            simp only [dtLoop, if_pos hd]
            refine ih (i + 1) _ acc (fun y hy => hnone y (by simp [hy])) hsort.2 ?_
            refine ⟨Or.inr (fun y hy => hfar y (by simp [hy])),
              fun y hy => hle y (by simp [hy])⟩

/-- The timestamp-repair pass is the identity on an all-present,
non-decreasing datetime column. -/
theorem dtPass_sorted_id (diff : ℚ) (l : List Cell)
    (hnone : ∀ x ∈ l, x ≠ none)
    (hsort : l.Pairwise (fun a b => a.getD 0 ≤ b.getD 0)) :
    dtPass diff l = l := by
  unfold dtPass
  exact dtLoop_no_write diff l 0 none l hnone hsort trivial

theorem chain_range' :
    ∀ (n s : ℕ), (List.range' s n).Chain' (fun a b => b = a + 1) := by
  intro n
  induction n with
  | zero => intro s; simp
  | succ m ih =>
      intro s
      rw [List.range'_succ]
      cases m with
      | zero => simp
      | succ m2 =>
          rw [List.chain'_cons']
          refine ⟨?_, ih (s + 1)⟩
          intro b hb
          rw [List.range'_succ] at hb
          simp only [List.head?_cons, Option.mem_def, Option.some_inj] at hb
          omega

theorem zipTail_adjacent :
    ∀ (l : List ℕ), l.Chain' (fun a b => b = a + 1) →
      ∀ p ∈ l.zip l.tail, p.2 = p.1 + 1 := by
  intro l
  induction l with
  | nil => intro _ p hp; simp at hp
  | cons a t ih =>
      intro hc p hp
      cases t with
      | nil => simp at hp
      | cons b t2 =>
          rw [List.chain'_cons] at hc
          simp only [List.tail_cons, List.zip_cons_cons, List.mem_cons] at hp
          rcases hp with rfl | hp
          · simpa using hc.1
          · exact ih hc.2 p (by simpa using hp)

theorem farRight_adj (cfg : FillCfg) (dts : List ℚ) (key : String) (k : ℕ)
    (acc : List Cell × ℕ) : farRight cfg dts key (k, k + 1) acc = acc := by
  unfold farRight
  rw [show (k, k + 1).2 - ((k, k + 1).1 + 1) = 0 from Nat.sub_self _,
    List.range'_zero, List.filter_nil]
  rfl

theorem farLeft_adj (cfg : FillCfg) (dts : List ℚ) (key : String) (k : ℕ)
    (acc : List Cell × ℕ) : farLeft cfg dts key (k, k + 1) acc = acc := by
  unfold farLeft
  rw [show (k, k + 1).2 - ((k, k + 1).1 + 1) = 0 from Nat.sub_self _,
    List.range'_zero, List.filter_nil]
  rfl

theorem pairStep_adjacent (cfg : FillCfg) (dts : List ℚ) (key : String)
    (acc : List Cell × ℕ) (k : ℕ) : pairStep cfg dts key acc (k, k + 1) = acc := by
  unfold pairStep
  by_cases hc : dts.getD (k, k + 1).2 0 - dts.getD (k, k + 1).1 0 < cfg.max_time_diff
  · rw [if_pos hc, fillRange_adj _ _ _ _ _ _ _ (by simp)]
  · rw [if_neg hc, farRight_adj, farLeft_adj]

theorem pairsFold_adjacent_id (cfg : FillCfg) (dts : List ℚ) (key : String) :
    ∀ (pl : List (ℕ × ℕ)) (acc : List Cell × ℕ),
      (∀ p ∈ pl, p.2 = p.1 + 1) →
      pl.foldl (pairStep cfg dts key) acc = acc := by
  intro pl
  induction pl with
  | nil => intro acc _; rfl
  | cons p pl ih =>
      intro acc hp
      rw [List.foldl_cons]
      have h1 : p.2 = p.1 + 1 := hp p (by simp)
      have hps : pairStep cfg dts key acc p = acc := by
        have : p = (p.1, p.1 + 1) := by
          rw [← h1]
        rw [this]
        exact pairStep_adjacent cfg dts key acc p.1
      rw [hps]
      exact ih acc (fun q hq => hp q (by simp [hq]))

theorem beforeBlock_zero (cfg : FillCfg) (dts : List ℚ) (key : String)
    (col : List Cell) (nF : ℕ) :
    beforeBlock cfg dts key col nF 0 = some (col, nF, none) := by
  unfold beforeBlock
  rw [if_neg (lt_irrefl 0)]
  rfl

theorem lastBlock_zero (cfg : FillCfg) (dts : List ℚ) (key : String)
    (s? : Option ℕ) (pr : List Cell × ℕ) :
    lastBlock cfg dts key 0 s? pr = some pr := by
  unfold lastBlock nearBefore
  rw [List.range_zero, List.filter_nil]
  rfl

/-- The per-column pass is the identity (with no counted fills) on a
non-empty, all-present column: every anchor pair is adjacent and every fill
window is empty. -/
theorem processKey_id (cfg : FillCfg) (dts : List ℚ) (key : String)
    (col : List Cell) (nF : ℕ)
    (hnone : ∀ x ∈ col, x ≠ none) (hlen : 0 < col.length) :
    processKey cfg dts key col nF = some (col, nF) := by
  unfold processKey
  have hidx : (List.range col.length).filter
      (fun i => (col.getD i none).isSome) = List.range col.length := by
    rw [List.filter_eq_self]
    intro i hi
    rw [List.mem_range] at hi
    rw [getD_eq_get col none i hi]
    have := hnone (col.get ⟨i, hi⟩) (col.get_mem _ _)
    cases h : col.get ⟨i, hi⟩ with
    | none => exact absurd h this
    | some y => rfl
  rw [hidx]
  have hh : (List.range col.length).head? = some 0 := by
    cases hn : col.length with
    | zero => omega
    | succ m => rw [List.range_succ_eq_map]; rfl
  simp only [Option.bind_eq_bind, hh, Option.some_bind, beforeBlock_zero]
  have hfold : ((List.range col.length).zip (List.range col.length).tail).foldl
      (pairStep cfg dts key) (col, nF) = (col, nF) := by
    refine pairsFold_adjacent_id cfg dts key _ _ ?_
    refine zipTail_adjacent _ ?_
    rw [List.range_eq_range']
    exact chain_range' _ _
  show lastBlock cfg dts key 0 none
      (((List.range col.length).zip (List.range col.length).tail).foldl
        (pairStep cfg dts key) (col, nF)) = _
  rw [hfold, lastBlock_zero]

theorem colsFold_id (cfg : FillCfg) (dts : List ℚ) :
    ∀ (cols : List (String × List Cell)) (A : List (String × List Cell)) (m : ℕ),
      (∀ c ∈ cols, (∀ x ∈ c.2, x ≠ none) ∧ 0 < c.2.length) →
      cols.foldlM (colStep cfg dts) (A, m) = some (A ++ cols, m) := by
  intro cols
  induction cols with
  | nil =>
      intro A m _
      rw [List.foldlM_nil, List.append_nil]
      rfl
  | cons c t ih =>
      intro A m hc
      rw [List.foldlM_cons]
      have hstep : colStep cfg dts (A, m) c = some (A ++ [c], m) := by
        unfold colStep
        by_cases hdt : c.1 = "datetime"
        · rw [if_pos hdt]
          rfl
        · rw [if_neg hdt]
          rw [processKey_id cfg dts c.1 c.2 m (hc c (by simp)).1 (hc c (by simp)).2]
          rfl
      rw [hstep]
      simp only [Option.bind_eq_bind, Option.some_bind]
      rw [ih (A ++ [c]) m (fun c2 hc2 => hc c2 (by simp [hc2]))]
      simp

theorem imputePhase2_fixed (cfg : FillCfg) (a b : ℕ) (d : Data) (n : ℕ)
    (hn : 1 ≤ n) (hlen : ∀ c ∈ d.cols, c.2.length = n)
    (hnoNone : ∀ c ∈ d.cols, ∀ x ∈ c.2, x ≠ none)
    (dl : List Cell) (hdl : d.lookup "datetime" = some dl) :
    imputePhase2 cfg a b d = some (d, ⟨a, b, 0, d.n_rows, d.n_cols⟩) := by
  have hdln : dl.length = n := hlen _ (lookup_mem hdl)
  unfold imputePhase2
  simp only [Option.bind_eq_bind, hdl, Option.some_bind]
  have hfold : d.cols.foldlM (colStep cfg (dl.map (fun o => o.getD 0))) ([], 0) =
      some (d.cols, 0) := by
    have h := colsFold_id cfg (dl.map (fun o => o.getD 0)) d.cols [] 0
      (fun c hc => ⟨hnoNone c hc, by rw [hlen c hc]; omega⟩)
    simpa using h
  simp only [hfold, Option.some_bind]
  have hR2 : (List.range dl.length).filter
      (fun i => d.cols.any (fun c => c.2.getD i none = none)) = [] := by
    rw [List.filter_eq_nil_iff]
    intro i hi
    rw [List.mem_range, hdln] at hi
    simp only [List.any_eq_true, decide_eq_true_eq, not_exists, not_and]
    intro c hc
    have hil : i < c.2.length := by rw [hlen c hc]; exact hi
    rw [getD_eq_get c.2 none i hil]
    exact hnoNone c hc _ (c.2.get_mem _ _)
  show some ((Data.mk d.cols).delete _, _) = _
  rw [hR2, delete_nil]
  rfl

theorem impute_complete_fixed (cfg : FillCfg) (d : Data) (n : ℕ)
    (hn : 1 ≤ n) (hlen : ∀ c ∈ d.cols, c.2.length = n)
    (hnodup : (d.cols.map Prod.fst).Nodup)
    (hnoNone : ∀ c ∈ d.cols, ∀ x ∈ c.2, x ≠ none)
    (dl : List Cell) (hdl : d.lookup "datetime" = some dl)
    (hsort : dl.Pairwise (fun x y => x.getD 0 ≤ y.getD 0)) :
    impute cfg d = some (d, ⟨0, 0, 0, d.n_rows, d.n_cols⟩) := by
  have hstrip : d.strip = d := by
    refine strip_eq_self d ?_
    intro c hc
    rw [List.any_eq_true]
    have h1 : 0 < c.2.length := by rw [hlen c hc]; omega
    obtain ⟨x, hx⟩ := List.exists_mem_of_length_pos h1
    refine ⟨x, hx, ?_⟩
    have := hnoNone c hc x hx
    cases x with
    | none => exact absurd rfl this
    | some y => rfl
  have hdlnone : ∀ x ∈ dl, x ≠ none := hnoNone _ (lookup_mem hdl)
  have hpass : dtPass cfg.max_time_diff dl = dl :=
    dtPass_sorted_id _ _ hdlnone hsort
  unfold impute
  simp only [Option.bind_eq_bind, hstrip, hdl, Option.some_bind, hpass]
  rw [setCol_self d "datetime" dl hnodup hdl, filter_none_empty dl hdlnone, delete_nil]
  rw [show d.n_cols - d.n_cols = 0 from Nat.sub_self _]
  exact imputePhase2_fixed cfg 0 0 d n hn hlen hnoNone dl hdl

theorem setCol_keys (d : Data) (k : String) (v : List Cell) :
    (d.setCol k v).cols.map Prod.fst = d.cols.map Prod.fst := by
  unfold Data.setCol
  rw [List.map_map]
  refine List.map_congr_left ?_
  intro c _
  by_cases hck : c.1 = k
  · simp [hck]
  · simp [hck]

theorem delete_keys (d : Data) (rows : List ℕ) :
    (d.delete rows).cols.map Prod.fst = d.cols.map Prod.fst := by
  unfold Data.delete
  rw [List.map_map]
  rfl

theorem lookup_of_key_mem :
    ∀ (cols : List (String × List Cell)) (k : String),
      k ∈ cols.map Prod.fst →
      ∃ v, ((cols.find? (fun c => c.1 = k)).map (fun c => c.2)) = some v := by
  intro cols
  induction cols with
  | nil => intro k hk; simp at hk
  | cons c t ih =>
      intro k hk
      by_cases h0 : c.1 = k
      · exact ⟨c.2, by rw [List.find?_cons_of_pos _ (by simpa using h0)]; rfl⟩
      · rw [List.map_cons, List.mem_cons] at hk
        rcases hk with hk | hk
        · exact absurd hk.symm h0
        · obtain ⟨v, hv⟩ := ih k hk
          exact ⟨v, by rw [List.find?_cons_of_neg _ (by simpa using h0)]; exact hv⟩

theorem colsFold_keys (cfg : FillCfg) (dts : List ℚ) :
    ∀ (cols : List (String × List Cell)) (acc : List (String × List Cell) × ℕ)
      (res : List (String × List Cell) × ℕ),
      cols.foldlM (colStep cfg dts) acc = some res →
      res.1.map Prod.fst = acc.1.map Prod.fst ++ cols.map Prod.fst := by
  intro cols
  induction cols with
  | nil =>
      intro acc res h
      simp only [List.foldlM_nil, pure, Option.some_inj] at h
      rw [← h, List.map_nil, List.append_nil]
  | cons c t ih =>
      intro acc res h
      rw [List.foldlM_cons] at h
      cases hcs : colStep cfg dts acc c with
      | none => rw [hcs] at h; simp at h
      | some acc1 =>
          rw [hcs] at h
          simp only [Option.bind_eq_bind, Option.some_bind] at h
          have hk1 : acc1.1.map Prod.fst = acc.1.map Prod.fst ++ [c.1] := by
            unfold colStep at hcs
            by_cases hdt : c.1 = "datetime"
            · rw [if_pos hdt] at hcs
              simp only [pure, Option.some_inj] at hcs
              rw [← hcs]
              simp
            · rw [if_neg hdt] at hcs
              cases hpk : processKey cfg dts c.1 c.2 acc.2 with
              | none => rw [hpk] at hcs; simp at hcs
              | some r =>
                  rw [hpk] at hcs
                  simp only [Option.bind_eq_bind, Option.some_bind, pure,
                    Option.some_inj] at hcs
                  rw [← hcs]
                  simp
          rw [ih acc1 res h, hk1]
          simp

theorem imputePhase2_keys_len {cfg : FillCfg} {a b : ℕ} {d3 d1 : Data}
    {s : ImputeStats} {n : ℕ}
    (hlen3 : ∀ c ∈ d3.cols, c.2.length = n)
    (h : imputePhase2 cfg a b d3 = some (d1, s)) :
    d1.cols.map Prod.fst = d3.cols.map Prod.fst ∧
      ∃ m, ∀ c ∈ d1.cols, c.2.length = m := by
  unfold imputePhase2 at h
  simp only [Option.bind_eq_bind] at h
  cases hl : d3.lookup "datetime" with
  | none => rw [hl] at h; simp at h
  | some dl =>
      rw [hl] at h
      simp only [Option.some_bind] at h
      cases hfold : d3.cols.foldlM (colStep cfg (dl.map (fun o => o.getD 0))) ([], 0) with
      | none => rw [hfold] at h; simp at h
      | some res =>
          rw [hfold] at h
          simp only [Option.some_bind, pure, Option.some_inj, Prod.mk.injEq] at h
          obtain ⟨hd1, _⟩ := h
          have hkeys : res.1.map Prod.fst = d3.cols.map Prod.fst := by
            have hk := colsFold_keys _ _ _ _ _ hfold
            simpa using hk
          have hdln : dl.length = n := hlen3 _ (lookup_mem hl)
          have hlen4 : ∀ c ∈ res.1, c.2.length = n :=
            colsFold_len _ _ _ _ _ _ hfold hlen3 (by intro c hc; simp at hc)
          constructor
          · rw [← hd1]
            rw [delete_keys]
            exact hkeys
          · refine ⟨remLen n ((List.range dl.length).filter
              (fun i => res.1.any (fun c => c.2.getD i none = none))), ?_⟩
            intro c hc
            rw [← hd1] at hc
            unfold Data.delete at hc
            simp only [List.mem_map] at hc
            obtain ⟨c0, hc0, hceq⟩ := hc
            rw [← hceq]
            show (removeIdxs c0.2 _).length = _
            rw [removeIdxs_length, hlen4 _ hc0]

theorem n_rows_eq_of (d : Data) (m : ℕ) (hne : d.cols ≠ [])
    (hm : ∀ c ∈ d.cols, c.2.length = m) : d.n_rows = m := by
  unfold Data.n_rows
  cases hc : d.cols with
  | nil => exact absurd hc hne
  | cons c0 t =>
      simp only [List.head?_cons, Option.map_some, Option.getD_some]
      exact hm c0 (by rw [hc]; simp)

/-- Key and length facts about a successful `impute` output: distinct keys, a
common column length, and a present `datetime` column. -/
theorem impute_out (cfg : FillCfg) (d0 d1 : Data) (s : ImputeStats)
    (hWF : d0.WF) (h : impute cfg d0 = some (d1, s)) :
    (d1.cols.map Prod.fst).Nodup ∧ (∃ m, ∀ c ∈ d1.cols, c.2.length = m) ∧
      ∃ dl1, d1.lookup "datetime" = some dl1 := by
  obtain ⟨hnodup0, hlen0⟩ := hWF
  unfold impute at h
  simp only [Option.bind_eq_bind] at h
  cases hl1 : (d0.strip).lookup "datetime" with
  | none => rw [hl1] at h; simp at h
  | some dts0 =>
      rw [hl1] at h
      simp only [Option.some_bind] at h
      obtain ⟨hkeys, m, hm⟩ := imputePhase2_keys_len (imputeD3_len hlen0 hl1) h
      rw [delete_keys, setCol_keys] at hkeys
      have hsub : ((d0.strip).cols.map Prod.fst).Sublist (d0.cols.map Prod.fst) :=
        (List.filter_sublist _).map _
      have hnodup1 : (d1.cols.map Prod.fst).Nodup := by
        rw [hkeys]
        exact hnodup0.sublist hsub
      have hdtmem : "datetime" ∈ d1.cols.map Prod.fst := by
        rw [hkeys]
        have := lookup_mem hl1
        exact List.mem_map_of_mem Prod.fst this
      obtain ⟨dl1, hdl1⟩ := lookup_of_key_mem d1.cols "datetime" hdtmem
      exact ⟨hnodup1, ⟨m, hm⟩, dl1, hdl1⟩

/-- Claim C8, counterexample.  Table `datetime = [0 s, 60 s, 600 s]`,
`x = [None, 5, None]`, `y = [6, None, 7]`, default configuration.  The first
`impute` returns normally with every row deleted (each row retains a `None`:
the empty `_fill_range` spans never write anything).  The second `impute`,
applied to that returned 0-row table, raises instead of returning zero
statistics: `strip("cols")` removes every (vacuously all-absent) column and
the `"datetime"` access fails — and had `strip` kept the empty columns,
`idx[0]` on the empty anchor list of `x` would raise `IndexError` instead —
so no statistics are returned at all. -/
theorem claim_C8_counterexample :
    impute defaultCfg ⟨[("datetime", [some 0, some 60, some 600]),
        ("x", [none, some 5, none]), ("y", [some 6, none, some 7])]⟩ =
      some (⟨[("datetime", []), ("x", []), ("y", [])]⟩, ⟨0, 3, 0, 0, 3⟩) ∧
    impute defaultCfg ⟨[("datetime", []), ("x", []), ("y", [])]⟩ = none := by
  constructor
  · set_option maxRecDepth 8000 in
    with_unfolding_all decide
  · with_unfolding_all decide

/-- Claim C8, amended: a second `impute` run is the identity with all-zero
change statistics provided the first run's output is non-empty and its
timestamps are non-decreasing: if `impute` returns `(T', s)` on a well-formed
table, `T'` has at least one row, and the returned `datetime` column is
non-decreasing, then `impute` on `T'` returns `T'` unchanged with statistics
`(0, 0, 0, n_rows, n_cols)`.  (Without the two extra conditions the claim
fails: a returned 0-row table makes the second run raise — the
counterexample — and a non-chronological table can still be rewritten by
the second run's timestamp pass.) -/
theorem claim_C8_amended (cfg : FillCfg) (T T2 : Data) (s : ImputeStats)
    (hWF : T.WF) (h : impute cfg T = some (T2, s))
    (hrows : 1 ≤ T2.n_rows)
    (hsorted : ∀ dl, T2.lookup "datetime" = some dl →
      dl.Pairwise (fun x y => x.getD 0 ≤ y.getD 0)) :
    impute cfg T2 = some (T2, ⟨0, 0, 0, T2.n_rows, T2.n_cols⟩) := by
  obtain ⟨hnodup, ⟨m, hm⟩, dl1, hdl1⟩ := impute_out cfg T T2 s hWF h
  have hnoNone := impute_noNone cfg T T2 s hWF h
  have hne : T2.cols ≠ [] := by
    intro hnil
    have := lookup_mem hdl1
    rw [hnil] at this
    simp at this
  have hnr : T2.n_rows = m := n_rows_eq_of T2 m hne hm
  have hn : 1 ≤ m := by rw [← hnr]; exact hrows
  exact impute_complete_fixed cfg T2 m hn hm hnodup hnoNone dl1 hdl1
    (hsorted dl1 hdl1)

/-- Witness for the amended C8: a table that `impute` leaves unchanged; the
second run is then also the identity with zero statistics. -/
theorem claim_C8_amended_witness :
    impute defaultCfg ⟨[("datetime", [some 0, some 60]), ("x", [some 5, some 6])]⟩ =
      some (⟨[("datetime", [some 0, some 60]), ("x", [some 5, some 6])]⟩,
        ⟨0, 0, 0, 2, 2⟩) := by
  have h := claim_C8_amended defaultCfg
    ⟨[("datetime", [some 0, some 60]), ("x", [some 5, some 6])]⟩
    ⟨[("datetime", [some 0, some 60]), ("x", [some 5, some 6])]⟩
    ⟨0, 0, 0, 2, 2⟩ (by decide)
    (by set_option maxRecDepth 4000 in with_unfolding_all decide)
    (by decide)
    (by
      intro dl hdl
      have : dl = [some 0, some 60] := by
        have h2 : [some (0 : ℚ), some 60] = dl := by simpa [Data.lookup] using hdl
        rw [← h2]
      rw [this]
      refine List.Pairwise.cons ?_ ?_
      · intro b hb
        simp only [List.mem_singleton] at hb
        rw [hb]
        norm_num
      · simp)
  exact h

end HR
